import Mathlib

/-!
Shallow embedding of the NovelPolisher core text pipeline
(`backend/src/preprocess.py`, `backend/src/chapter_split.py`,
`backend/src/chunking.py`) over `List Char`, together with proofs of the
specification claims about it.

Strings are modelled as `List Char` (Python strings are sequences of code
points, so list positions coincide with Python indices and `len`).
Python's default whitespace set for `str.strip` and the regex class `\s`
is modelled by the six ASCII whitespace characters, which are the ones
this pipeline manipulates.
-/

set_option maxRecDepth 10000

deriving instance DecidableEq for Except

namespace NovelPolisher

/-- Model of Python whitespace (`str.strip` default set and regex `\s`),
restricted to ASCII whitespace characters. -/
def pySpace (c : Char) : Bool :=
  c = ' ' || c = '\t' || c = '\n' || c = '\r' || c = '\x0b' || c = '\x0c'

/-- Model of the regex class `\d` (ASCII decimal digits). -/
def pyDigit (c : Char) : Bool := '0' ≤ c && c ≤ '9'

/-- Python `str.lstrip()`. -/
def lstrip (l : List Char) : List Char := l.dropWhile pySpace

/-- Python `str.rstrip()`. -/
def rstrip (l : List Char) : List Char := (l.reverse.dropWhile pySpace).reverse

/-- Python `str.strip()`. -/
def pystrip (l : List Char) : List Char := rstrip (lstrip l)

/-- Python `text.split('\n')`. -/
def splitNL : List Char → List (List Char)
  | [] => [[]]
  | '\n' :: rest => [] :: splitNL rest
  | c :: rest =>
    match splitNL rest with
    | h :: t => (c :: h) :: t
    | [] => [[c]]

/-- Python `text.split('\n\n')` (leftmost, non-overlapping occurrences). -/
def splitNN : List Char → List (List Char)
  | '\n' :: '\n' :: rest => [] :: splitNN rest
  | c :: rest =>
    match splitNN rest with
    | h :: t => (c :: h) :: t
    | [] => [[c]]
  | [] => [[]]

/-- Python `'\n\n'.join(pieces)`. -/
def joinNN : List (List Char) → List Char
  | [] => []
  | [x] => x
  | x :: y :: rest => x ++ '\n' :: '\n' :: joinNN (y :: rest)

/-- Python `'\n'.join(pieces)`. -/
def joinNL : List (List Char) → List Char
  | [] => []
  | [x] => x
  | x :: y :: rest => x ++ '\n' :: joinNL (y :: rest)

/-- Decimal digit characters of a natural number, with structural fuel
(any fuel above the number of digits gives the same value). -/
def natStrF : Nat → Nat → List Char
  | 0, _ => []
  | fuel + 1, n =>
    if n < 10 then [Char.ofNat (48 + n)]
    else natStrF fuel (n / 10) ++ [Char.ofNat (48 + n % 10)]

/-- Decimal digit characters of a natural number (Python `str` of a
non-negative `int`). -/
def natStr (n : Nat) : List Char := natStrF (n + 1) n

/-- Python `str` of an `int`. -/
def intStr (n : Int) : List Char :=
  if n < 0 then '-' :: natStr n.natAbs else natStr n.toNat

/-- Numeric value of a digit string (Python `int(s)` for a string of
decimal digits). -/
def natOfDigits (ds : List Char) : Nat :=
  ds.foldl (fun acc c => 10 * acc + (c.toNat - 48)) 0

section Chunking

/-! ### `chunking.py` -/

/-- The sentence-ending characters of the chunking regex
`(?<=[.!?…。！？])\s+`. -/
def sentEnd (c : Char) : Bool :=
  c = '.' || c = '!' || c = '?' || c = '…' || c = '。' || c = '！' || c = '？'

/-- Guard of the sentence splitter: the character before the current
position (head of the reversed current piece) is sentence-ending and the
current character is whitespace, i.e. the lookbehind `(?<=[.!?…。！？])` and
`\s` both hold here. -/
def sentGuard : List Char → Char → Bool
  | p :: _, c => sentEnd p && pySpace c
  | [], _ => false

/-- Fuelled worker for `sentencePieces`; any fuel at least the length of
the list gives the same value. -/
def sentencePiecesF : Nat → List Char → List Char → List (List Char)
  | _, acc, [] => [acc.reverse]
  | 0, acc, l => [acc.reverse ++ l]
  | fuel + 1, acc, c :: rest =>
    if sentGuard acc c then
      acc.reverse :: sentencePiecesF fuel [] (rest.dropWhile pySpace)
    else
      sentencePiecesF fuel (c :: acc) rest

/-- Pieces produced by `re.split(r'(?<=[.!?…。！？])\s+', text)`: the text is
cut at every maximal whitespace run that is preceded by a sentence-ending
character, and those whitespace runs are discarded.  `acc` is the current
piece, reversed. -/
def sentencePieces (acc : List Char) (l : List Char) : List (List Char) :=
  sentencePiecesF l.length acc l

/-- `split_by_sentences` from `chunking.py`. -/
def split_by_sentences (text : List Char) : List (List Char) :=
  ((sentencePieces [] text).map pystrip).filter (fun s => !s.isEmpty)

/-- The mutable state of the greedy packing loop in `split_by_paragraphs`:
finished chunks, the pieces of the current chunk, and the running
`current_length` counter. -/
structure PackState where
  chunks : List (List Char)
  cur : List (List Char)
  curLen : Int

/-- `chunks.append('\n\n'.join(current_chunk))` followed by resetting the
current chunk. -/
def flush (st : PackState) : PackState :=
  { chunks := st.chunks ++ [joinNN st.cur], cur := [], curLen := 0 }

/-- One iteration of the sentence loop of `split_by_paragraphs`. -/
def pushSentence (maxChars : Int) (st : PackState) (s : List Char) : PackState :=
  let st1 := if st.curLen + s.length + 1 > maxChars ∧ st.cur ≠ [] then flush st else st
  { st1 with cur := st1.cur ++ [s], curLen := st1.curLen + s.length + 2 }

/-- One iteration of the paragraph loop of `split_by_paragraphs`. -/
def pushParagraph (maxChars : Int) (st : PackState) (para0 : List Char) : PackState :=
  let para := pystrip para0
  if para.isEmpty then st
  else if (para.length : Int) > maxChars then
    let st1 := if st.cur ≠ [] then flush st else st
    (split_by_sentences para).foldl (pushSentence maxChars) st1
  else
    let st1 :=
      if st.curLen + para.length + 2 > maxChars ∧ st.cur ≠ [] then flush st else st
    { st1 with cur := st1.cur ++ [para], curLen := st1.curLen + para.length + 2 }

/-- `split_by_paragraphs` from `chunking.py`. -/
def split_by_paragraphs (text : List Char) (maxChars : Int) : List (List Char) :=
  let st := (splitNN text).foldl (pushParagraph maxChars) ⟨[], [], 0⟩
  if st.cur ≠ [] then st.chunks ++ [joinNN st.cur] else st.chunks

/-- `Chapter` dataclass from `chapter_split.py`. -/
structure Chapter where
  number : Int
  title : List Char
  text : List Char
deriving DecidableEq

/-- `Chunk` dataclass from `chunking.py`. -/
structure Chunk where
  chapter_number : Int
  chapter_title : List Char
  part_number : Nat
  total_parts : Nat
  text : List Char
  chunk_id : List Char
deriving DecidableEq

/-- Zero padding of Python's `f"{n:0wd}"` format for `w` total width. -/
def padZero (w : Nat) (ds : List Char) : List Char :=
  List.replicate (w - ds.length) '0' ++ ds

/-- Python `f"{n:04d}"`-style formatting of an `int` at width `w`. -/
def fmt0d (w : Nat) (n : Int) : List Char :=
  if n < 0 then '-' :: padZero (w - 1) (natStr n.natAbs) else padZero w (natStr n.toNat)

/-- Chunk identifier `f"chap_{number:04d}_part_{i:03d}"`. -/
def chunkIdStr (chapNum : Int) (part : Nat) : List Char :=
  "chap_".toList ++ fmt0d 4 chapNum ++ "_part_".toList ++ fmt0d 3 (part : Int)

/-- The `for i, part_text in enumerate(text_parts, start=1)` loop of
`create_chunks`, with `total` the already-known number of parts. -/
def numberParts (ch : Chapter) (total : Nat) : Nat → List (List Char) → List Chunk
  | _, [] => []
  | i, p :: rest =>
    ⟨ch.number, ch.title, i, total, p, chunkIdStr ch.number i⟩ ::
      numberParts ch total (i + 1) rest

/-- The per-chapter body of `create_chunks`. -/
def chunksOfChapter (maxChars : Int) (ch : Chapter) : List Chunk :=
  let t := pystrip ch.text
  if (t.length : Int) ≤ maxChars then
    [⟨ch.number, ch.title, 1, 1, t, chunkIdStr ch.number 1⟩]
  else
    let parts := split_by_paragraphs t maxChars
    numberParts ch parts.length 1 parts

/-- `create_chunks` from `chunking.py`; the `ValueError` raised for
non-positive `max_chars` is modelled by `Except.error` carrying the
rendered message. -/
def create_chunks (chapters : List Chapter) (maxChars : Int) :
    Except (List Char) (List Chunk) :=
  if maxChars ≤ 0 then
    .error ("max_chars must be positive, got ".toList ++ intStr maxChars)
  else
    .ok (chapters.flatMap (chunksOfChapter maxChars))

/-- A pair of adjacent characters that is not a sentence-split point of the
regex `(?<=[.!?…。！？])\s+`. -/
def noSplitPair (a b : Char) : Prop := ¬(sentEnd a = true ∧ pySpace b = true)

/-- A chunk text satisfying the size-bound contract: within `maxChars`, or a
single indivisible sentence (one the sentence splitter returns unchanged). -/
def GoodChunk (maxChars : Int) (c : List Char) : Prop :=
  (c.length : Int) ≤ maxChars ∨
    (maxChars < (c.length : Int) ∧ split_by_sentences c = [c])

/-- Invariant of the greedy packing state: finished chunks obey the size
contract and are trimmed, current pieces are trimmed and nonempty, the
`current_length` counter is the joined length plus two, and the current
buffer is within bounds unless it is a lone oversized sentence. -/
structure PackInv (maxChars : Int) (st : PackState) : Prop where
  chunks_good : ∀ c ∈ st.chunks, GoodChunk maxChars c
  chunks_trim : ∀ c ∈ st.chunks, pystrip c = c
  cur_pieces : ∀ p ∈ st.cur, p ≠ [] ∧ pystrip p = p
  len_nil : st.cur = [] → st.curLen = 0
  len_cons : st.cur ≠ [] → st.curLen = ((joinNN st.cur).length : Int) + 2
  cur_good : st.cur ≠ [] →
    ((joinNN st.cur).length : Int) ≤ maxChars ∨
      ∃ s, st.cur = [s] ∧ maxChars < (s.length : Int) ∧ split_by_sentences s = [s]

end Chunking

section Preprocess

/-! ### `preprocess.py` -/

/-- `SENTENCE_ENDINGS` from `preprocess.py`:
`set('.!?…:;"\'"」』】）)]' + '”“')`. -/
def SENTENCE_ENDINGS : List Char :=
  ['.', '!', '?', '…', ':', ';', '"', Char.ofNat 0x27, Char.ofNat 0x201d,
   Char.ofNat 0x201c, '」', '』', '】', '）', ')', ']']

/-- `LINE_START_BLOCK` from `preprocess.py`: `set('•·●○◆◇■□▪▫–—-')`. -/
def LINE_START_BLOCK : List Char :=
  ['•', '·', '●', '○', '◆', '◇', '■', '□', '▪', '▫', '–', '—', '-']

/-- Python `str.replace('\r\n', '\n').replace('\r', '\n')`
(`normalize_newlines` in `preprocess.py`): every `\r\n` pair and every
remaining lone `\r` becomes `\n`. -/
def normalize_newlines : List Char → List Char
  | [] => []
  | '\r' :: '\n' :: rest => '\n' :: normalize_newlines rest
  | '\r' :: rest => '\n' :: normalize_newlines rest
  | c :: rest => c :: normalize_newlines rest

/-- ASCII lower-casing, modelling `re.IGNORECASE` on the ASCII letters used
by the page-number patterns. -/
def asciiLower (c : Char) : Char :=
  if 'A' ≤ c && c ≤ 'Z' then Char.ofNat (c.toNat + 32) else c

/-- Case-insensitive literal prefix test for a lowercase ASCII word. -/
def matchCI (w : List Char) (s : List Char) : Bool :=
  (s.take w.length).map asciiLower = w

/-- Case-folding for the letters of the word `chương` (ASCII plus the
Vietnamese letters `Ư` and `Ơ`), modelling `re.IGNORECASE` there. -/
def foldLower (c : Char) : Char :=
  if 'A' ≤ c && c ≤ 'Z' then Char.ofNat (c.toNat + 32)
  else if c = 'Ư' then 'ư'
  else if c = 'Ơ' then 'ơ'
  else c

/-- Case-insensitive match of the six-character literal `chương` at the head
of `s`. -/
def matchWordCI (s : List Char) : Bool :=
  (s.take 6).map foldLower = "chương".toList

/-- The dash class `[-—–]` of the second page-number pattern. -/
def DASHES : List Char := ['-', '—', '–']

/-- Model of the trailing `\s*$` (no `re.MULTILINE`) of the page-number
patterns: some backtracking position inside the whitespace run satisfies
`$`, which happens exactly when the whole rest is whitespace (a final
newline is itself whitespace). -/
def wsThenEnd (rest : List Char) : Bool := (rest.dropWhile pySpace).isEmpty

/-- `\s*\d+\s*$`: skip whitespace, at least one digit, then `\s*$`. -/
def wsNumEnd (rest : List Char) : Bool :=
  let r := rest.dropWhile pySpace
  let ds := r.takeWhile pyDigit
  !ds.isEmpty && wsThenEnd (r.drop ds.length)

/-- `is_page_number_line` from `preprocess.py`: `re.match` of one of
`^\s*\d+\s*$`, `^\s*[-—–]\s*\d+\s*[-—–]\s*$`,
`^\s*(Page|Trang|p\.?)\s*\d+\s*$` (case-insensitive) against the stripped
line. -/
def is_page_number_line (line : List Char) : Bool :=
  let s := pystrip line
  let s1 := s.dropWhile pySpace
  -- pattern 1: just a number
  (let ds := s1.takeWhile pyDigit
   !ds.isEmpty && wsThenEnd (s1.drop ds.length)) ||
  -- pattern 2: - 1 -
  (match s1 with
   | d1 :: r1 =>
     DASHES.contains d1 &&
       (let r2 := r1.dropWhile pySpace
        let ds := r2.takeWhile pyDigit
        !ds.isEmpty &&
          (match (r2.drop ds.length).dropWhile pySpace with
           | d2 :: r3 => DASHES.contains d2 && wsThenEnd r3
           | [] => false))
   | [] => false) ||
  -- pattern 3: Page 1 / Trang 1 / p. 1
  ((matchCI "page".toList s1 && wsNumEnd (s1.drop 4)) ||
   (matchCI "trang".toList s1 && wsNumEnd (s1.drop 5)) ||
   (matchCI "p".toList s1 &&
     (match s1.drop 1 with
      | '.' :: r => wsNumEnd r
      | r => wsNumEnd r)))

/-- The separator class `[:：.\-–—]` shared by `is_chapter_heading` and
`CHAPTER_PATTERN`. -/
def HEADING_SEPS : List Char := [':', '：', '.', '-', '–', '—']

/-- The heading regex `^\s*chương\s+\d{1,5}\s*(?:[:：.\-–—]|$)`
(case-insensitive) applied to an already-stripped string.  A digit run
longer than five fails: after any one-to-five digit prefix the next
character is a digit, which is not a separator, not whitespace and not a
`$` position. -/
def headingCore (s : List Char) : Bool :=
  let s1 := s.dropWhile pySpace
  matchWordCI s1 &&
    (let r1 := s1.drop 6
     let ws := r1.takeWhile pySpace
     !ws.isEmpty &&
       (let r2 := r1.drop ws.length
        let ds := r2.takeWhile pyDigit
        (!ds.isEmpty && decide (ds.length ≤ 5)) &&
          (match (r2.drop ds.length).dropWhile pySpace with
           | c :: _ => HEADING_SEPS.contains c
           | [] => true)))

/-- `is_chapter_heading` from `preprocess.py`: `re.match` of the heading
pattern against the stripped line. -/
def is_chapter_heading (line : List Char) : Bool :=
  headingCore (pystrip line)

/-- Model of Python `str.isupper()` on one character, restricted to the
alphabets this pipeline can meet: ASCII, Latin-1 uppercase, and the
Vietnamese uppercase letters. -/
def pyIsUpper (c : Char) : Bool :=
  ('A' ≤ c && c ≤ 'Z') ||
  (Char.ofNat 0xC0 ≤ c && c ≤ Char.ofNat 0xDE && c ≠ Char.ofNat 0xD7) ||
  c = 'Ă' || c = 'Đ' || c = 'Ĩ' || c = 'Ũ' || c = 'Ơ' || c = 'Ư' ||
  (Char.ofNat 0x1EA0 ≤ c && c ≤ Char.ofNat 0x1EF8 && c.toNat % 2 = 0)

/-- Model of Python `str.isdigit()` on one character (ASCII digits). -/
def pyIsDigit (c : Char) : Bool := pyDigit c

/-- `should_join_lines` from `preprocess.py`. -/
def should_join_lines (current_line next_line : List Char) : Bool :=
  let current := rstrip current_line
  let next_stripped := pystrip next_line
  if current.isEmpty || next_stripped.isEmpty then false
  else if is_chapter_heading current || is_chapter_heading next_stripped then false
  else if (match current.getLast? with
           | some c => SENTENCE_ENDINGS.contains c
           | none => false) then false
  else if (match next_stripped.head? with
           | some c => LINE_START_BLOCK.contains c
           | none => false) then false
  else if (match next_stripped.head? with
           | some c => pyIsUpper c && !pyIsDigit c
           | none => false) then false
  else true

/-- The distinct qualified lines of one page: trimmed lines of length 3 to
40, each counted at most once per page (`seen_on_page`). -/
def qualifiedLines (page : List Char) : List (List Char) :=
  (((splitNL page).map pystrip).filter
    (fun s => 3 ≤ s.length && s.length ≤ 40)).dedup

/-- Increment of one key in an association list (model of
`collections.Counter`). -/
def bump (k : List Char) : List (List Char × Nat) → List (List Char × Nat)
  | [] => [(k, 1)]
  | (k2, n) :: rest => if k2 = k then (k2, n + 1) :: rest else (k2, n) :: bump k rest

/-- The per-page counting loop of `find_repeating_headers_footers`. -/
def tallyPages (pages : List (List Char)) : List (List Char × Nat) :=
  pages.foldl (fun counts pg => (qualifiedLines pg).foldl (fun cs l => bump l cs) counts) []

/-- Python `int(effective_total * threshold)` under the rational model of
the float threshold: truncation toward zero of the product, computed on the
raw fraction (the value of a truncated division depends only on the
fraction's value, so the unreduced pair is fine). -/
def pyIntMulNat (q : ℚ) (n : Nat) : Int := Int.tdiv (q.num * n) (q.den : Int)

/-- The float literal `0.3` under the rational model. -/
def float03 : ℚ := ⟨3, 10, by decide, by decide⟩

/-- Insertion into a sorted list of naturals. -/
def insertSorted (n : Nat) : List Nat → List Nat
  | [] => [n]
  | m :: rest => if n ≤ m then n :: m :: rest else m :: insertSorted n rest

/-- Model of Python `sorted` on naturals. -/
def sortNat (l : List Nat) : List Nat := l.foldr insertSorted []

/-- Python `sorted(set(xs))`. -/
def sortedDedup (l : List Nat) : List Nat := sortNat l.dedup

/-- The page-sampling step of `find_repeating_headers_footers` for more than
200 pages: the first 50 and last 50 page indices, plus 100 indices from the
middle; the draw `random.sample(middle_range, 100)` is modelled by the
explicit parameter `pick`, which stands for the global random-number
generator state. -/
def sampleIndices (pick : List Nat) (total : Nat) : List Nat :=
  let base := List.range 50 ++ List.range' (total - 50) 50
  let middle := List.range' 50 (total - 100)
  let extra := if 100 < middle.length then pick else middle
  sortedDedup (base ++ extra)

/-- The pages actually scanned: all of them up to 200 pages, the sampled
subset beyond. -/
def sampledPages (pick : List Nat) (pageTexts : List (List Char)) : List (List Char) :=
  if 200 < pageTexts.length then
    (sampleIndices pick pageTexts.length).map (fun i => pageTexts.getD i [])
  else pageTexts

/-- `find_repeating_headers_footers` from `preprocess.py`, returning the set
of repeating lines as a list (membership is what matters). -/
def find_repeating_headers_footers (pick : List Nat) (pageTexts : List (List Char))
    (threshold : ℚ) : List (List Char) :=
  if pageTexts.length < 3 then []
  else
    let sampled := sampledPages pick pageTexts
    let effective := sampled.length
    let counts := tallyPages sampled
    let minCount := pyIntMulNat threshold effective
    (counts.filter (fun kc => minCount ≤ (kc.2 : Int))).map Prod.fst

/-- Number of pages whose distinct qualified lines include `l` — the
declarative page-count that the counting loop realizes, counting a line at
most once per page. -/
def pageCount (pages : List (List Char)) (l : List Char) : Nat :=
  (pages.filter (fun pg => decide (l ∈ qualifiedLines pg))).length

/-- Well-formedness of the counter: the entries with key `k` are exactly one
entry `(k, cnt k)` when `cnt k` is positive, and none otherwise. -/
def CountInv (cs : List (List Char × Nat)) (cnt : List Char → Nat) : Prop :=
  ∀ k, cs.filter (fun kn => kn.1 = k) = if 1 ≤ cnt k then [(k, cnt k)] else []

/-- The three literal alternatives `(Chương|CHƯƠNG|chương)` of the
`normalize_chapter_title` pattern; at most one can match at a position. -/
def chapWords : List (List Char) :=
  ["Chương".toList, "CHƯƠNG".toList, "chương".toList]

/-- Which of the three literal word alternatives matches at the head of
`s`, if any. -/
def wordPrefix? (s : List Char) : Option (List Char) :=
  chapWords.findSome? (fun w => if s.take 6 = w then some w else none)

/-- The separator class `[:：\-–]` of `normalize_chapter_title` (note: no
em dash `—`, unlike the segmentation pattern). -/
def NCT_SEPS : List Char := [':', '：', '-', '–']

/-- The title group `\s*(.+?)(?=\n|$)` of `normalize_chapter_title`: the
preceding `\s*` is greedy, so title start positions are tried from the end
of the whitespace run downwards, and the first position holding a
non-newline character wins; the lazy `.+?` then runs to the end of that
line, where the lookahead holds. -/
def nctTitle (r : List Char) : Option (List Char × List Char) :=
  let m := (r.takeWhile pySpace).length
  (List.range (m + 1)).findSome? (fun d =>
    let j := m - d
    match (r.drop j).head? with
    | some c =>
      if c = '\n' then none
      else
        let title := (r.drop j).takeWhile (fun x => x ≠ '\n')
        some (title, (r.drop j).drop title.length)
    | none => none)

/-- One attempted match of the `normalize_chapter_title` pattern
`(Chương|CHƯƠNG|chương)\s+(\d{1,5})\s*[:：\-–]\s*(.+?)(?=\n|$)` at the head
of `s`; returns the matched word, the digit group, the title group, and
the suffix after the match. -/
def nctMatchHere (s : List Char) :
    Option (List Char × List Char × List Char × List Char) :=
  match wordPrefix? s with
  | none => none
  | some w =>
    let r1 := s.drop 6
    let ws1 := r1.takeWhile pySpace
    if ws1.isEmpty then none
    else
      let r2 := r1.drop ws1.length
      let ds := r2.takeWhile pyDigit
      if ds.isEmpty || decide (5 < ds.length) then none
      else
        let r3 := r2.drop ds.length
        let r4 := r3.drop (r3.takeWhile pySpace).length
        match r4.head? with
        | some sep =>
          if NCT_SEPS.contains sep then
            match nctTitle (r4.drop 1) with
            | some te => some (w, ds, te.1, te.2)
            | none => none
          else none
        | none => none

/-- The `re.sub` scan of `normalize_chapter_title`: copy characters, attempt
the pattern at each position, and on a match emit the replacement
`f"{chap_word} {number}: {title.strip()}"` and continue after the match. -/
def nctGoF : Nat → List Char → List Char
  | _, [] => []
  | 0, s => s
  | fuel + 1, c :: rest =>
    match nctMatchHere (c :: rest) with
    | some (w, ds, title, after) =>
      w ++ ' ' :: (ds ++ ':' :: ' ' :: pystrip title) ++ nctGoF fuel after
    | none => c :: nctGoF fuel rest

/-- `normalize_chapter_title` from `preprocess.py`. -/
def normalize_chapter_title (text : List Char) : List Char :=
  nctGoF text.length text

/-- The line-processing loop of `preprocess_text` (step 3).  `acc` holds the
processed lines in reverse; a join rewrites the next worklist entry in
place, exactly like `lines[i + 1] = stripped + ' ' + next_line.strip()`. -/
def processLinesF (rep : List (List Char)) :
    Nat → List (List Char) → List (List Char) → List (List Char)
  | _, acc, [] => acc.reverse
  | 0, acc, ls => acc.reverse ++ ls
  | fuel + 1, acc, line :: rest =>
    let stripped := pystrip line
    if is_page_number_line stripped then processLinesF rep fuel acc rest
    else if rep.contains stripped then processLinesF rep fuel acc rest
    else if stripped.isEmpty then
      (match acc with
       | prev :: _ =>
         if !(pystrip prev).isEmpty then processLinesF rep fuel ([] :: acc) rest
         else processLinesF rep fuel acc rest
       | [] => processLinesF rep fuel acc rest)
    else
      match rest with
      | next :: rest2 =>
        if should_join_lines line next && !is_page_number_line (pystrip next) then
          processLinesF rep fuel acc ((stripped ++ ' ' :: pystrip next) :: rest2)
        else processLinesF rep fuel (stripped :: acc) rest
      | [] => processLinesF rep fuel (stripped :: acc) rest

/-- The `\n{3,} → \n\n` cleanup (step 5 of `preprocess_text`). -/
def collapseNLF : Nat → List Char → List Char
  | _, [] => []
  | 0, s => s
  | fuel + 1, c :: rest =>
    if c = '\n' then
      let k := (rest.takeWhile (fun x => x = '\n')).length
      if 3 ≤ k + 1 then '\n' :: '\n' :: collapseNLF fuel (rest.drop k)
      else c :: (rest.take k ++ collapseNLF fuel (rest.drop k))
    else c :: collapseNLF fuel rest

/-- `preprocess_text` from `preprocess.py`.  `page_texts=None` is modelled
by the empty list (both are falsy in `if page_texts:`); `pick` threads the
random sample used by the boilerplate detector on large inputs; the float
threshold `0.3` is modelled by the rational `3/10`. -/
def preprocess_text (pick : List Nat) (text : List Char)
    (page_texts : List (List Char)) : List Char :=
  let t := normalize_newlines text
  let repeating :=
    if page_texts.isEmpty then []
    else find_repeating_headers_footers pick page_texts float03
  let lines := splitNL t
  let processed := processLinesF repeating lines.length [] lines
  let result := joinNL processed
  let result2 := normalize_chapter_title result
  let result3 := collapseNLF result2.length result2
  pystrip result3

/-- The rational value `1/2`, a concrete threshold for tests. -/
def qHalf : ℚ := ⟨1, 2, by decide, by decide⟩

/-- Five concrete pages; the line `abcd` appears on two of them. -/
def examplePages : List (List Char) :=
  ["abcd".toList, "abcd".toList, "efgh".toList, "ijkl".toList, "mnop".toList]

/-- 201 concrete pages: `abcde` on the first 60, short filler on the rest —
exercises the sampling path taken for more than 200 pages. -/
def bigPages : List (List Char) :=
  List.replicate 60 "abcde".toList ++ List.replicate 141 "zz".toList

end Preprocess

section ChapterSplit

/-! ### `chapter_split.py` -/

/-- A match of `CHAPTER_PATTERN`: its span and its two groups. -/
structure RMatch where
  start : Nat
  stop : Nat
  digits : List Char
  titleGroup : Option (List Char)
deriving DecidableEq

/-- Last index of a newline in a list. -/
def lastNL : List Char → Option Nat
  | [] => none
  | c :: rest =>
    match lastNL rest with
    | some k => some (k + 1)
    | none => if c = '\n' then some 0 else none

/-- The trailing `\s*$` of `CHAPTER_PATTERN` under `re.MULTILINE`: from
`pos` the engine consumes whitespace greedily and backtracks to the largest
position where `$` holds — the end of the string when the run reaches it,
otherwise the last newline inside the run. -/
def wsDollarEnd (text : List Char) (pos : Nat) : Option Nat :=
  let run := (text.drop pos).takeWhile pySpace
  if pos + run.length = text.length then some text.length
  else (lastNL run).map (fun k => pos + k)

/-- Lazy title attempt of `CHAPTER_PATTERN` at start position `j`: the
smallest nonempty run of non-newline characters after which `\s*$`
succeeds. -/
def titleAtJ (text : List Char) (j : Nat) : Option (List Char × Nat) :=
  let lineLen := ((text.drop j).takeWhile (fun c => c ≠ '\n')).length
  (List.range lineLen).findSome? (fun k0 =>
    let k := k0 + 1
    (wsDollarEnd text (j + k)).map (fun e => ((text.drop j).take k, e)))

/-- Backtracking of the `\s*` before the title group of `CHAPTER_PATTERN`:
title start positions are tried from the end of the whitespace run
downwards. -/
def titleSearch (text : List Char) (i6 : Nat) : Option (List Char × Nat) :=
  let runB := ((text.drop i6).takeWhile pySpace).length
  (List.range (runB + 1)).findSome? (fun d => titleAtJ text (i6 + runB - d))

/-- One attempted match of `CHAPTER_PATTERN`
(`^\s*chương\s+(\d{1,5})\s*(?:[:：.\-–—]\s*(.+?))?\s*$`, case-insensitive,
multiline) at position `p`, which the caller has checked to be a line
start.  The optional group is tried first; if it fails, the bare `\s*$`
alternative backtracks to the largest `$` position inside the whitespace
run after the digits. -/
def chapterMatchAt (text : List Char) (p : Nat) : Option RMatch :=
  let i1 := p + ((text.drop p).takeWhile pySpace).length
  if matchWordCI (text.drop i1) then
    let i2 := i1 + 6
    let ws := ((text.drop i2).takeWhile pySpace).length
    if ws = 0 then none
    else
      let i3 := i2 + ws
      let ds := (text.drop i3).takeWhile pyDigit
      if ds.isEmpty || decide (5 < ds.length) then none
      else
        let i4 := i3 + ds.length
        let i5 := i4 + ((text.drop i4).takeWhile pySpace).length
        let present :=
          match (text.drop i5).head? with
          | some c =>
            if HEADING_SEPS.contains c then
              (titleSearch text (i5 + 1)).map
                (fun te => RMatch.mk p te.2 ds (some te.1))
            else none
          | none => none
        match present with
        | some m => some m
        | none =>
          if i5 = text.length then some ⟨p, i5, ds, none⟩
          else
            match lastNL ((text.drop i4).takeWhile pySpace) with
            | some k => some ⟨p, i4 + k, ds, none⟩
            | none => none
  else none

/-- `^` under `re.MULTILINE`: position 0 or just after a newline. -/
def lineStart (text : List Char) (p : Nat) : Bool :=
  p = 0 || (text.drop (p - 1)).head? = some '\n'

/-- The scan of `CHAPTER_PATTERN.finditer`: try every line-start position
left to right, and continue after the end of each (nonempty) match. -/
def findChaptersF (text : List Char) : Nat → Nat → List RMatch
  | 0, _ => []
  | fuel + 1, p =>
    if text.length < p then []
    else if lineStart text p then
      match chapterMatchAt text p with
      | some m => m :: findChaptersF text fuel (max m.stop (p + 1))
      | none => findChaptersF text fuel (p + 1)
    else findChaptersF text fuel (p + 1)

/-- All matches of `CHAPTER_PATTERN` in document order. -/
def findChapters (text : List Char) : List RMatch :=
  findChaptersF text (text.length + 1) 0

/-- Chapter title: the optional title group, or `f"Chương {chapter_num}"`
when absent, then stripped. -/
def chapterTitle (m : RMatch) : List Char :=
  match m.titleGroup with
  | some t => pystrip t
  | none => pystrip ("Chương ".toList ++ natStr (natOfDigits m.digits))

/-- The chapter records built from the heading matches: each chapter's text
runs from the end of its heading to the start of the next heading (or the
end of the document), stripped. -/
def buildChapters (text : List Char) : List RMatch → List Chapter
  | [] => []
  | [m] =>
    [⟨(natOfDigits m.digits : Int), chapterTitle m, pystrip (text.drop m.stop)⟩]
  | m :: m2 :: rest =>
    ⟨(natOfDigits m.digits : Int), chapterTitle m,
      pystrip ((text.drop m.stop).take (m2.start - m.stop))⟩ ::
        buildChapters text (m2 :: rest)

/-- `split_into_chapters` from `chapter_split.py`. -/
def split_into_chapters (text : List Char) : List Chapter :=
  match findChapters text with
  | [] => [⟨1, "Toàn bộ nội dung".toList, pystrip text⟩]
  | m :: ms =>
    let chapters := buildChapters text (m :: ms)
    let prologue := pystrip (text.take m.start)
    if !prologue.isEmpty && decide (100 < prologue.length) then
      ⟨0, "Mở đầu".toList, prologue⟩ :: chapters
    else chapters

end ChapterSplit

/-! ### Lemmas about `pystrip` -/

section StripLemmas

theorem lstrip_of_head (l : List Char)
    (h : ∀ c, l.head? = some c → pySpace c = false) : lstrip l = l := by
  cases l with
  | nil => rfl
  | cons a t =>
    have := h a rfl
    simp [lstrip, List.dropWhile_cons, this]

theorem rstrip_of_getLast (l : List Char)
    (h : ∀ c, l.getLast? = some c → pySpace c = false) : rstrip l = l := by
  have h' : ∀ c, l.reverse.head? = some c → pySpace c = false := by
    intro c hc
    exact h c (by rwa [List.head?_reverse] at hc)
  have : l.reverse.dropWhile pySpace = l.reverse := by
    cases hrev : l.reverse with
    | nil => simp
    | cons a t =>
      have := h' a (by rw [hrev]; rfl)
      simp [List.dropWhile_cons, this]
  rw [rstrip, this, List.reverse_reverse]

theorem pystrip_of_ends (l : List Char)
    (h1 : ∀ c, l.head? = some c → pySpace c = false)
    (h2 : ∀ c, l.getLast? = some c → pySpace c = false) : pystrip l = l := by
  rw [pystrip, lstrip_of_head l h1, rstrip_of_getLast l h2]

theorem dropWhile_head_false {p : Char → Bool} {l t : List Char} {c : Char}
    (h : l.dropWhile p = c :: t) : p c = false := by
  have hne : l.dropWhile p ≠ [] := by simp [h]
  have hhd := List.head_dropWhile_not p l hne
  have : (l.dropWhile p).head hne = c := by
    rw [List.head_eq_iff_head?_eq_some]
    rw [h]
    rfl
  rwa [this] at hhd

theorem lstrip_head (l : List Char) (c : Char) (t : List Char)
    (h : lstrip l = c :: t) : pySpace c = false :=
  dropWhile_head_false h

theorem pystrip_getLast (l : List Char) :
    ∀ c, (pystrip l).getLast? = some c → pySpace c = false := by
  intro c hc
  rw [pystrip, rstrip, List.getLast?_reverse] at hc
  cases hd : (lstrip l).reverse.dropWhile pySpace with
  | nil => rw [hd] at hc; simp at hc
  | cons a t =>
    rw [hd] at hc
    simp only [List.head?] at hc
    cases hc
    exact dropWhile_head_false hd

theorem pystrip_isPrefix (l : List Char) : pystrip l <+: lstrip l := by
  rw [pystrip, rstrip]
  rw [← List.reverse_suffix, List.reverse_reverse]
  exact List.dropWhile_suffix pySpace

theorem pystrip_head (l : List Char) :
    ∀ c, (pystrip l).head? = some c → pySpace c = false := by
  intro c hc
  obtain ⟨t, ht⟩ := pystrip_isPrefix l
  cases hp : pystrip l with
  | nil => rw [hp] at hc; simp at hc
  | cons a t2 =>
    rw [hp] at hc
    simp only [List.head?] at hc
    cases hc
    rw [hp] at ht
    exact lstrip_head l c (t2 ++ t) (by rw [← ht]; simp)

theorem pystrip_idem (l : List Char) : pystrip (pystrip l) = pystrip l :=
  pystrip_of_ends (pystrip l) (pystrip_head l) (pystrip_getLast l)

theorem pystrip_length_le (l : List Char) : (pystrip l).length ≤ l.length := by
  calc (pystrip l).length ≤ (lstrip l).length := (pystrip_isPrefix l).sublist.length_le
    _ ≤ l.length := (List.dropWhile_suffix pySpace).sublist.length_le

theorem pystrip_nil : pystrip [] = [] := rfl

theorem head_not_space_of_trimmed {l : List Char} (ht : pystrip l = l) :
    ∀ c, l.head? = some c → pySpace c = false := by
  intro c hc
  exact pystrip_head l c (by rwa [ht])

theorem getLast_not_space_of_trimmed {l : List Char} (ht : pystrip l = l) :
    ∀ c, l.getLast? = some c → pySpace c = false := by
  intro c hc
  exact pystrip_getLast l c (by rwa [ht])

/-- `'\n\n'.join` of nonempty pieces is nonempty and starts with the head
of the first piece. -/
theorem joinNN_head? (x : List Char) (rest : List (List Char)) (hx : x ≠ []) :
    (joinNN (x :: rest)).head? = x.head? := by
  cases rest with
  | nil => rfl
  | cons y r =>
    show (x ++ '\n' :: '\n' :: joinNN (y :: r)).head? = x.head?
    cases x with
    | nil => exact absurd rfl hx
    | cons a t => rfl

theorem joinNN_ne_nil (x : List Char) (rest : List (List Char)) (hx : x ≠ []) :
    joinNN (x :: rest) ≠ [] := by
  intro hnil
  have := joinNN_head? x rest hx
  rw [hnil] at this
  cases x with
  | nil => exact hx rfl
  | cons a t => simp at this

theorem joinNN_getLast? (pieces : List (List Char))
    (hne : ∀ p ∈ pieces, p ≠ []) (hp : pieces ≠ []) :
    ∃ q ∈ pieces, (joinNN pieces).getLast? = q.getLast? := by
  induction pieces with
  | nil => exact absurd rfl hp
  | cons x rest ih =>
    cases rest with
    | nil => exact ⟨x, by simp, rfl⟩
    | cons y r =>
      have hyr : ∀ p ∈ y :: r, p ≠ [] := fun p hmem => hne p (List.mem_cons_of_mem x hmem)
      obtain ⟨q, hq, hql⟩ := ih hyr (by simp)
      refine ⟨q, List.mem_cons_of_mem x hq, ?_⟩
      show (x ++ '\n' :: '\n' :: joinNN (y :: r)).getLast? = q.getLast?
      rw [List.getLast?_append]
      have hjoin : joinNN (y :: r) ≠ [] := joinNN_ne_nil y r (hyr y (by simp))
      have : ('\n' :: '\n' :: joinNN (y :: r)).getLast? = (joinNN (y :: r)).getLast? := by
        cases hj : joinNN (y :: r) with
        | nil => exact absurd hj hjoin
        | cons a t => simp
      rw [this, hql]
      cases hq2 : q.getLast? with
      | none =>
        rw [List.getLast?_eq_none_iff] at hq2
        exact absurd hq2 (hyr q hq)
      | some c => rfl

/-- `'\n\n'.join` of trimmed nonempty pieces is itself trimmed. -/
theorem joinNN_trimmed (pieces : List (List Char))
    (h : ∀ p ∈ pieces, p ≠ [] ∧ pystrip p = p) :
    pystrip (joinNN pieces) = joinNN pieces := by
  cases pieces with
  | nil => rfl
  | cons x rest =>
    have hx := h x (by simp)
    apply pystrip_of_ends
    · intro c hc
      rw [joinNN_head? x rest hx.1] at hc
      exact head_not_space_of_trimmed hx.2 c hc
    · intro c hc
      obtain ⟨q, hq, hql⟩ :=
        joinNN_getLast? (x :: rest) (fun p hmem => (h p hmem).1) (by simp)
      rw [hql] at hc
      exact getLast_not_space_of_trimmed (h q hq).2 c hc

theorem lstrip_cons (c : Char) (t : List Char) :
    lstrip (c :: t) = if pySpace c then lstrip t else c :: t := by
  simp [lstrip, List.dropWhile_cons]

theorem rstrip_cons (c : Char) (t : List Char) :
    rstrip (c :: t) =
      if rstrip t = [] then (if pySpace c then [] else [c]) else c :: rstrip t := by
  have hrev : (c :: t).reverse = t.reverse ++ [c] := by simp
  rw [rstrip, hrev, List.dropWhile_append]
  by_cases hr : rstrip t = []
  · have : t.reverse.dropWhile pySpace = [] := by
      have := congrArg List.reverse hr
      rwa [rstrip, List.reverse_reverse, List.reverse_nil] at this
    rw [if_pos hr, this]
    by_cases hc : pySpace c = true
    · simp [List.dropWhile_cons, hc]
    · simp [List.dropWhile_cons, hc]
  · have hne : t.reverse.dropWhile pySpace ≠ [] := by
      intro hnil
      exact hr (by rw [rstrip, hnil, List.reverse_nil])
    rw [if_neg hr]
    rw [if_neg (by simpa [List.isEmpty_iff] using hne)]
    rw [List.reverse_append]
    simp [rstrip]

theorem rstrip_idem (l : List Char) : rstrip (rstrip l) = rstrip l := by
  rw [rstrip, rstrip, List.reverse_reverse, List.dropWhile_idempotent]

theorem lstrip_rstrip_comm (l : List Char) : lstrip (rstrip l) = rstrip (lstrip l) := by
  induction l with
  | nil => rfl
  | cons c t ih =>
    rw [rstrip_cons, lstrip_cons]
    by_cases hr : rstrip t = []
    · rw [if_pos hr]
      by_cases hc : pySpace c = true
      · rw [if_pos hc, if_pos hc]
        show lstrip [] = rstrip (lstrip t)
        rw [← ih, hr]
      · rw [if_neg hc, if_neg hc]
        show lstrip [c] = rstrip (c :: t)
        rw [lstrip_cons, if_neg hc, rstrip_cons, if_pos hr, if_neg hc]
    · rw [if_neg hr]
      by_cases hc : pySpace c = true
      · rw [if_pos hc]
        show lstrip (c :: rstrip t) = rstrip (lstrip t)
        rw [lstrip_cons, if_pos hc, ih]
      · rw [if_neg hc]
        show lstrip (c :: rstrip t) = rstrip (c :: t)
        rw [lstrip_cons, if_neg hc, rstrip_cons, if_neg hr]

theorem pystrip_rstrip (l : List Char) : pystrip (rstrip l) = pystrip l := by
  rw [pystrip, lstrip_rstrip_comm, rstrip_idem, pystrip]

theorem all_space_of_lstrip_nil {l : List Char} (h : lstrip l = []) :
    ∀ c ∈ l, pySpace c = true := by
  intro c hc
  rw [lstrip, List.dropWhile_eq_nil_iff] at h
  exact h c hc

theorem lstrip_nil_of_all_space {l : List Char} (h : ∀ c ∈ l, pySpace c = true) :
    lstrip l = [] := by
  rw [lstrip, List.dropWhile_eq_nil_iff]
  exact h

theorem rstrip_eq_nil_iff (l : List Char) :
    rstrip l = [] ↔ ∀ c ∈ l, pySpace c = true := by
  constructor
  · intro h c hc
    have : l.reverse.dropWhile pySpace = [] := by
      have := congrArg List.reverse h
      rwa [rstrip, List.reverse_reverse, List.reverse_nil] at this
    rw [List.dropWhile_eq_nil_iff] at this
    exact this c (List.mem_reverse.mpr hc)
  · intro h
    rw [rstrip]
    have : l.reverse.dropWhile pySpace = [] := by
      rw [List.dropWhile_eq_nil_iff]
      intro c hc
      exact h c (List.mem_reverse.mp hc)
    rw [this, List.reverse_nil]

theorem pystrip_eq_nil_iff (l : List Char) :
    pystrip l = [] ↔ ∀ c ∈ l, pySpace c = true := by
  constructor
  · intro h c hc
    rw [pystrip, rstrip_eq_nil_iff] at h
    have hsplit := List.takeWhile_append_dropWhile pySpace l
    have hc2 : c ∈ l.takeWhile pySpace ++ l.dropWhile pySpace := by rw [hsplit]; exact hc
    rcases List.mem_append.mp hc2 with htk | hdr
    · exact List.mem_takeWhile_imp htk
    · exact h c hdr
  · intro h
    rw [pystrip, rstrip_eq_nil_iff]
    intro c hc
    exact h c ((List.dropWhile_suffix pySpace).subset hc)

theorem rstrip_eq_nil_iff_pystrip (l : List Char) :
    rstrip l = [] ↔ pystrip l = [] := by
  rw [rstrip_eq_nil_iff, pystrip_eq_nil_iff]

end StripLemmas

/-! ### The sentence splitter returns indivisible pieces -/

section SentenceLemmas

theorem guard_false_of_noSplitPair {acc : List Char} {c : Char}
    (h : ∀ p t, acc = p :: t → noSplitPair p c) : sentGuard acc c = false := by
  cases acc with
  | nil => rfl
  | cons p t =>
    have := h p t rfl
    rw [noSplitPair] at this
    show (sentEnd p && pySpace c) = false
    simp only [Bool.and_eq_false_iff]
    by_cases hs : sentEnd p = true
    · by_cases hw : pySpace c = true
      · exact absurd ⟨hs, hw⟩ this
      · exact Or.inr (by simpa using hw)
    · exact Or.inl (by simpa using hs)

theorem chain'_snoc_of_guard_false {acc : List Char} {c : Char}
    (hch : List.Chain' noSplitPair acc.reverse)
    (hg : sentGuard acc c = false) :
    List.Chain' noSplitPair (acc.reverse ++ [c]) := by
  rw [List.chain'_append]
  refine ⟨hch, List.chain'_singleton c, ?_⟩
  intro x hx y hy
  simp only [List.head?_cons, Option.mem_def, Option.some.injEq] at hy
  subst hy
  rw [List.getLast?_reverse] at hx
  cases acc with
  | nil => simp at hx
  | cons p t =>
    simp only [List.head?_cons, Option.mem_def, Option.some.injEq] at hx
    have hg2 : (sentEnd p && pySpace c) = false := hg
    simp only [Bool.and_eq_false_iff] at hg2
    rw [← hx, noSplitPair]
    rintro ⟨hs, hw⟩
    rcases hg2 with hg2 | hg2
    · rw [hs] at hg2; cases hg2
    · rw [hw] at hg2; cases hg2

theorem sentencePiecesF_guard_true {fuel : Nat} {acc : List Char} {c : Char}
    {rest : List Char} (hg : sentGuard acc c = true) :
    sentencePiecesF (fuel + 1) acc (c :: rest) =
      acc.reverse :: sentencePiecesF fuel [] (rest.dropWhile pySpace) := by
  simp [sentencePiecesF, hg]

theorem sentencePiecesF_guard_false {fuel : Nat} {acc : List Char} {c : Char}
    {rest : List Char} (hg : sentGuard acc c = false) :
    sentencePiecesF (fuel + 1) acc (c :: rest) =
      sentencePiecesF fuel (c :: acc) rest := by
  simp [sentencePiecesF, hg]

theorem sentencePiecesF_chain :
    ∀ fuel acc l, l.length ≤ fuel → List.Chain' noSplitPair acc.reverse →
      ∀ p ∈ sentencePiecesF fuel acc l, List.Chain' noSplitPair p := by
  intro fuel
  induction fuel with
  | zero =>
    intro acc l hlen hch p hp
    have : l = [] := List.length_eq_zero.mp (Nat.le_zero.mp hlen)
    subst this
    simp only [sentencePiecesF, List.mem_singleton] at hp
    subst hp
    exact hch
  | succ fuel ih =>
    intro acc l hlen hch p hp
    cases l with
    | nil =>
      simp only [sentencePiecesF, List.mem_singleton] at hp
      subst hp
      exact hch
    | cons c rest =>
      simp only [List.length_cons, Nat.succ_le_succ_iff] at hlen
      cases hg : sentGuard acc c with
      | true =>
        rw [sentencePiecesF_guard_true hg] at hp
        rcases List.mem_cons.mp hp with rfl | hp
        · exact hch
        · exact ih [] (rest.dropWhile pySpace)
            (le_trans ((List.dropWhile_suffix pySpace).sublist.length_le) hlen)
            (by simp) p hp
      | false =>
        rw [sentencePiecesF_guard_false hg] at hp
        refine ih (c :: acc) rest hlen ?_ p hp
        show List.Chain' noSplitPair (c :: acc).reverse
        rw [List.reverse_cons]
        exact chain'_snoc_of_guard_false hch hg

theorem chain'_suffix_of {l m : List Char} (h : List.Chain' noSplitPair l)
    (hs : m <:+ l) : List.Chain' noSplitPair m :=
  List.Chain'.suffix h hs

theorem chain'_pystrip {l : List Char} (h : List.Chain' noSplitPair l) :
    List.Chain' noSplitPair (pystrip l) := by
  have h1 : List.Chain' noSplitPair (lstrip l) :=
    chain'_suffix_of h (List.dropWhile_suffix pySpace)
  rw [pystrip, rstrip]
  have h2 : List.Chain' (flip noSplitPair) (lstrip l).reverse :=
    List.chain'_reverse.mpr h1
  have h3 : List.Chain' (flip noSplitPair) ((lstrip l).reverse.dropWhile pySpace) :=
    List.Chain'.suffix h2 (List.dropWhile_suffix pySpace)
  exact List.chain'_reverse.mpr h3

theorem sentencePiecesF_of_chain :
    ∀ fuel acc t, t.length ≤ fuel → List.Chain' noSplitPair (acc.reverse ++ t) →
      sentencePiecesF fuel acc t = [acc.reverse ++ t] := by
  intro fuel
  induction fuel with
  | zero =>
    intro acc t hlen _
    have : t = [] := List.length_eq_zero.mp (Nat.le_zero.mp hlen)
    subst this
    simp [sentencePiecesF]
  | succ fuel ih =>
    intro acc t hlen hch
    cases t with
    | nil => simp [sentencePiecesF]
    | cons c rest =>
      simp only [List.length_cons, Nat.succ_le_succ_iff] at hlen
      have hg : sentGuard acc c = false := by
        apply guard_false_of_noSplitPair
        intro p t2 hacc
        subst hacc
        rw [List.chain'_append] at hch
        exact hch.2.2 p (by rw [List.getLast?_reverse]; rfl) c rfl
      rw [sentencePiecesF_guard_false hg]
      rw [ih (c :: acc) rest hlen (by simpa using hch)]
      simp

theorem split_by_sentences_fixpoint {s : List Char}
    (hch : List.Chain' noSplitPair s) (ht : pystrip s = s) (hne : s ≠ []) :
    split_by_sentences s = [s] := by
  rw [split_by_sentences, sentencePieces,
    show sentencePiecesF s.length [] s = [[].reverse ++ s] from
      sentencePiecesF_of_chain s.length [] s le_rfl (by simpa using hch)]
  simp only [List.reverse_nil, List.nil_append, List.map_cons, List.map_nil, ht]
  have hie : s.isEmpty = false := by
    cases s with
    | nil => exact absurd rfl hne
    | cons a t => rfl
  simp [List.filter, hie]

theorem split_by_sentences_mem {t s : List Char} (hs : s ∈ split_by_sentences t) :
    s ≠ [] ∧ pystrip s = s ∧ split_by_sentences s = [s] := by
  rw [split_by_sentences] at hs
  have hmem := List.mem_of_mem_filter hs
  have hkeep := List.of_mem_filter hs
  obtain ⟨p, hp, rfl⟩ := List.mem_map.mp hmem
  have hne : pystrip p ≠ [] := by
    intro hnil
    rw [hnil] at hkeep
    simp at hkeep
  have hchp : List.Chain' noSplitPair p :=
    sentencePiecesF_chain t.length [] t le_rfl (by simp) p hp
  have hchs : List.Chain' noSplitPair (pystrip p) := chain'_pystrip hchp
  exact ⟨hne, pystrip_idem p,
    split_by_sentences_fixpoint hchs (pystrip_idem p) hne⟩

end SentenceLemmas

/-! ### The enumerate loop of create_chunks -/

section NumberPartsLemmas

theorem numberParts_length (ch : Chapter) (total : Nat) :
    ∀ i parts, (numberParts ch total i parts).length = parts.length := by
  intro i parts
  induction parts generalizing i with
  | nil => rfl
  | cons p rest ih => simp [numberParts, ih]

theorem numberParts_map_part (ch : Chapter) (total : Nat) :
    ∀ i parts, (numberParts ch total i parts).map Chunk.part_number =
      List.range' i parts.length := by
  intro i parts
  induction parts generalizing i with
  | nil => rfl
  | cons p rest ih => simp [numberParts, List.range', ih]

theorem numberParts_total (ch : Chapter) (total : Nat) :
    ∀ i parts c, c ∈ numberParts ch total i parts → c.total_parts = total := by
  intro i parts
  induction parts generalizing i with
  | nil => intro c hc; simp [numberParts] at hc
  | cons p rest ih =>
    intro c hc
    simp only [numberParts, List.mem_cons] at hc
    rcases hc with rfl | hc
    · rfl
    · exact ih (i + 1) c hc

theorem numberParts_map_text (ch : Chapter) (total : Nat) :
    ∀ i parts, (numberParts ch total i parts).map Chunk.text = parts := by
  intro i parts
  induction parts generalizing i with
  | nil => rfl
  | cons p rest ih => simp [numberParts, ih]

end NumberPartsLemmas

/-! ### The greedy packing invariant -/

section PackingLemmas

theorem joinNN_snoc {cur : List (List Char)} (s : List Char) (hne : cur ≠ []) :
    joinNN (cur ++ [s]) = joinNN cur ++ '\n' :: '\n' :: s := by
  induction cur with
  | nil => exact absurd rfl hne
  | cons x rest ih =>
    cases rest with
    | nil => rfl
    | cons y r =>
      show joinNN (x :: ((y :: r) ++ [s])) = (x ++ '\n' :: '\n' :: joinNN (y :: r)) ++ _
      cases hyr : (y :: r) ++ [s] with
      | nil => simp at hyr
      | cons z w =>
        rw [← hyr]
        show x ++ '\n' :: '\n' :: joinNN ((y :: r) ++ [s]) = _
        rw [ih (by simp)]
        simp

theorem init_inv (maxChars : Int) : PackInv maxChars ⟨[], [], 0⟩ := by
  refine ⟨?_, ?_, ?_, ?_, ?_, ?_⟩
  · intro c hc; simp at hc
  · intro c hc; simp at hc
  · intro p hp; simp at hp
  · intro; rfl
  · intro hne; exact absurd rfl hne
  · intro hne; exact absurd rfl hne

theorem flush_inv {maxChars : Int} {st : PackState} (h : PackInv maxChars st)
    (hne : st.cur ≠ []) : PackInv maxChars (flush st) := by
  obtain ⟨cg, ct, cp, _, _, cgo⟩ := h
  refine ⟨?_, ?_, ?_, ?_, ?_, ?_⟩
  · intro c hc
    simp only [flush, List.mem_append, List.mem_singleton] at hc
    rcases hc with hc | rfl
    · exact cg c hc
    · rcases cgo hne with hle | ⟨s, hcur, hgt, hsp⟩
      · exact Or.inl hle
      · rw [hcur]
        exact Or.inr ⟨hgt, hsp⟩
  · intro c hc
    simp only [flush, List.mem_append, List.mem_singleton] at hc
    rcases hc with hc | rfl
    · exact ct c hc
    · exact joinNN_trimmed st.cur cp
  · intro p hp; simp [flush] at hp
  · intro; rfl
  · intro habs; exact absurd rfl habs
  · intro habs; exact absurd rfl habs

theorem pushFresh_inv {maxChars : Int} {st : PackState} {s : List Char}
    (h : PackInv maxChars st) (hcur : st.cur = [])
    (hs1 : s ≠ []) (hs2 : pystrip s = s)
    (hgood : (s.length : Int) ≤ maxChars ∨ split_by_sentences s = [s]) :
    PackInv maxChars
      { st with cur := st.cur ++ [s], curLen := st.curLen + s.length + 2 } := by
  obtain ⟨cg, ct, cp, ln, _, _⟩ := h
  have hlen0 : st.curLen = 0 := ln hcur
  refine ⟨cg, ct, ?_, ?_, ?_, ?_⟩
  · intro p hp
    simp only [hcur, List.nil_append, List.mem_singleton] at hp
    subst hp
    exact ⟨hs1, hs2⟩
  · intro habs
    simp [hcur] at habs
  · intro _
    simp only [hcur, List.nil_append]
    show st.curLen + (s.length : Int) + 2 = ((joinNN [s]).length : Int) + 2
    rw [hlen0]
    show (0 : Int) + s.length + 2 = (s.length : Int) + 2
    omega
  · intro _
    simp only [hcur, List.nil_append]
    show ((joinNN [s]).length : Int) ≤ maxChars ∨
      ∃ t, [s] = [t] ∧ maxChars < (t.length : Int) ∧ split_by_sentences t = [t]
    rcases le_or_lt (s.length : Int) maxChars with hle | hgt
    · exact Or.inl hle
    · rcases hgood with hle | hfix
      · omega
      · exact Or.inr ⟨s, rfl, hgt, hfix⟩

theorem pushAppend_inv {maxChars : Int} {st : PackState} {s : List Char}
    (h : PackInv maxChars st) (hne : st.cur ≠ [])
    (hs1 : s ≠ []) (hs2 : pystrip s = s)
    (hroom : st.curLen + s.length ≤ maxChars) :
    PackInv maxChars
      { st with cur := st.cur ++ [s], curLen := st.curLen + s.length + 2 } := by
  obtain ⟨cg, ct, cp, _, lc, _⟩ := h
  have hL := lc hne
  have hjoin : joinNN (st.cur ++ [s]) = joinNN st.cur ++ '\n' :: '\n' :: s :=
    joinNN_snoc s hne
  refine ⟨cg, ct, ?_, ?_, ?_, ?_⟩
  · intro p hp
    rcases List.mem_append.mp hp with hp | hp
    · exact cp p hp
    · rw [List.mem_singleton] at hp
      subst hp
      exact ⟨hs1, hs2⟩
  · intro habs
    simp at habs
  · intro _
    show st.curLen + (s.length : Int) + 2 = ((joinNN (st.cur ++ [s])).length : Int) + 2
    rw [hjoin]
    simp only [List.length_append, List.length_cons]
    push_cast
    omega
  · intro _
    left
    show ((joinNN (st.cur ++ [s])).length : Int) ≤ maxChars
    rw [hjoin]
    simp only [List.length_append, List.length_cons]
    push_cast
    omega

theorem pushSentence_inv {maxChars : Int} {st : PackState} {s : List Char}
    (h : PackInv maxChars st) (hs1 : s ≠ []) (hs2 : pystrip s = s)
    (hs3 : split_by_sentences s = [s]) :
    PackInv maxChars (pushSentence maxChars st s) := by
  simp only [pushSentence]
  by_cases hc : st.curLen + s.length + 1 > maxChars ∧ st.cur ≠ []
  · rw [if_pos hc]
    exact pushFresh_inv (flush_inv h hc.2) rfl hs1 hs2 (Or.inr hs3)
  · rw [if_neg hc]
    by_cases hcur : st.cur = []
    · exact pushFresh_inv h hcur hs1 hs2 (Or.inr hs3)
    · rcases not_and_or.mp hc with hgt | habs
      · exact pushAppend_inv h hcur hs1 hs2 (by omega)
      · exact absurd hcur (by simpa using habs)

theorem foldSentences_inv {maxChars : Int} :
    ∀ (ss : List (List Char)) (st : PackState),
      (∀ s ∈ ss, s ≠ [] ∧ pystrip s = s ∧ split_by_sentences s = [s]) →
      PackInv maxChars st → PackInv maxChars (ss.foldl (pushSentence maxChars) st) := by
  intro ss
  induction ss with
  | nil => intro st _ h; exact h
  | cons s rest ih =>
    intro st hss h
    have hs := hss s (by simp)
    exact ih _ (fun t ht => hss t (List.mem_cons_of_mem s ht))
      (pushSentence_inv h hs.1 hs.2.1 hs.2.2)

theorem pushParagraph_inv {maxChars : Int} {st : PackState} (para : List Char)
    (h : PackInv maxChars st) : PackInv maxChars (pushParagraph maxChars st para) := by
  simp only [pushParagraph]
  by_cases he : (pystrip para).isEmpty
  · rw [if_pos he]
    exact h
  · rw [if_neg he]
    have hne : pystrip para ≠ [] := by
      intro hnil
      rw [hnil] at he
      exact he rfl
    by_cases hgt : ((pystrip para).length : Int) > maxChars
    · rw [if_pos hgt]
      have h1 : PackInv maxChars (if st.cur ≠ [] then flush st else st) := by
        by_cases hcur : st.cur ≠ []
        · rw [if_pos hcur]; exact flush_inv h hcur
        · rw [if_neg hcur]; exact h
      exact foldSentences_inv _ _ (fun s hs => split_by_sentences_mem hs) h1
    · rw [if_neg hgt]
      by_cases hc : st.curLen + (pystrip para).length + 2 > maxChars ∧ st.cur ≠ []
      · rw [if_pos hc]
        exact pushFresh_inv (flush_inv h hc.2) rfl hne (pystrip_idem para)
          (Or.inl (by omega))
      · rw [if_neg hc]
        by_cases hcur : st.cur = []
        · exact pushFresh_inv h hcur hne (pystrip_idem para) (Or.inl (by omega))
        · rcases not_and_or.mp hc with hroom | habs
          · exact pushAppend_inv h hcur hne (pystrip_idem para) (by omega)
          · exact absurd hcur (by simpa using habs)

theorem foldParagraphs_inv {maxChars : Int} :
    ∀ (ps : List (List Char)) (st : PackState),
      PackInv maxChars st → PackInv maxChars (ps.foldl (pushParagraph maxChars) st) := by
  intro ps
  induction ps with
  | nil => intro st h; exact h
  | cons p rest ih => intro st h; exact ih _ (pushParagraph_inv p h)

/-- Every chunk text emitted by `split_by_paragraphs` obeys the size
contract and is trimmed. -/
theorem split_by_paragraphs_spec (text : List Char) (maxChars : Int) :
    ∀ c ∈ split_by_paragraphs text maxChars,
      GoodChunk maxChars c ∧ pystrip c = c := by
  intro c hc
  rw [split_by_paragraphs] at hc
  have hinv : PackInv maxChars ((splitNN text).foldl (pushParagraph maxChars) ⟨[], [], 0⟩) :=
    foldParagraphs_inv _ _ (init_inv maxChars)
  set st := (splitNN text).foldl (pushParagraph maxChars) ⟨[], [], 0⟩ with hst
  by_cases hcur : st.cur ≠ []
  · rw [if_pos hcur] at hc
    have hf := flush_inv hinv hcur
    have : c ∈ (flush st).chunks := by
      simpa [flush] using hc
    exact ⟨hf.chunks_good c this, hf.chunks_trim c this⟩
  · rw [if_neg hcur] at hc
    exact ⟨hinv.chunks_good c hc, hinv.chunks_trim c hc⟩

/-- Every chunk of a chapter obeys the size contract and is trimmed. -/
theorem chunksOfChapter_text_spec (maxChars : Int) (ch : Chapter) :
    ∀ c ∈ chunksOfChapter maxChars ch,
      GoodChunk maxChars c.text ∧ pystrip c.text = c.text := by
  intro c hc
  rw [chunksOfChapter] at hc
  by_cases hle : ((pystrip ch.text).length : Int) ≤ maxChars
  · rw [if_pos hle] at hc
    simp only [List.mem_singleton] at hc
    subst hc
    exact ⟨Or.inl hle, pystrip_idem ch.text⟩
  · rw [if_neg hle] at hc
    have htext : c.text ∈ split_by_paragraphs (pystrip ch.text) maxChars := by
      have hmap := numberParts_map_text ch
        (split_by_paragraphs (pystrip ch.text) maxChars).length 1
        (split_by_paragraphs (pystrip ch.text) maxChars)
      rw [← hmap]
      exact List.mem_map_of_mem Chunk.text hc
    exact split_by_paragraphs_spec _ _ c.text htext

end PackingLemmas

/-! ### Part numbering (`create_chunks`) -/

section PartNumbering

/-- C2: for every chapter list and every `maxChars > 0`, the Chunk Packer
succeeds, its output is the in-order concatenation of the per-chapter chunk
lists (chapter order, then part order), and within each chapter the part
numbers are exactly `1, …, k` in order with `totalParts = k` on every
chunk, where `k` is that chapter's chunk count. -/
theorem create_chunks_part_numbering (chapters : List Chapter) (maxChars : Int)
    (h : 0 < maxChars) :
    create_chunks chapters maxChars = .ok (chapters.flatMap (chunksOfChapter maxChars)) ∧
    ∀ ch ∈ chapters,
      (chunksOfChapter maxChars ch).map Chunk.part_number =
        List.range' 1 (chunksOfChapter maxChars ch).length ∧
      ∀ c ∈ chunksOfChapter maxChars ch,
        c.total_parts = (chunksOfChapter maxChars ch).length := by
  constructor
  · rw [create_chunks, if_neg (by omega)]
  · intro ch _
    rw [chunksOfChapter]
    by_cases hle : ((pystrip ch.text).length : Int) ≤ maxChars
    · rw [if_pos hle]
      exact ⟨rfl, by intro c hc; simp at hc; rw [hc]; rfl⟩
    · rw [if_neg hle]
      refine ⟨?_, ?_⟩
      · rw [numberParts_map_part, numberParts_length]
      · intro c hc
        rw [numberParts_length]
        exact numberParts_total ch _ 1 _ c hc

/-- Witness for C2 at a concrete two-chapter input forcing a multi-part
split. -/
theorem create_chunks_part_numbering_witness :
    (chunksOfChapter 6 ⟨2, "T".toList, "One. Two. Three.".toList⟩).map Chunk.part_number =
      List.range' 1 (chunksOfChapter 6 ⟨2, "T".toList, "One. Two. Three.".toList⟩).length := by
  have h := (create_chunks_part_numbering
    [⟨2, "T".toList, "One. Two. Three.".toList⟩] 6 (by norm_num)).2
    ⟨2, "T".toList, "One. Two. Three.".toList⟩ (by simp)
  exact h.1

/-- C3: calling the Chunk Packer with `maxChars ≤ 0` fails immediately with
the `ValueError` (modelled as `Except.error` with the rendered message) for
every chapter list, and with `maxChars > 0` it never fails. -/
theorem create_chunks_maxChars_contract (chapters : List Chapter) (maxChars : Int) :
    (maxChars ≤ 0 →
      create_chunks chapters maxChars =
        .error ("max_chars must be positive, got ".toList ++ intStr maxChars)) ∧
    (0 < maxChars →
      create_chunks chapters maxChars =
        .ok (chapters.flatMap (chunksOfChapter maxChars))) := by
  constructor
  · intro h
    rw [create_chunks, if_pos h]
  · intro h
    rw [create_chunks, if_neg (by omega)]

/-- Witness for C3: `maxChars = 0` on a concrete chapter list errors, and
`maxChars = 7000` succeeds. -/
theorem create_chunks_maxChars_contract_witness :
    create_chunks [⟨1, "T".toList, "x".toList⟩] 0 =
      .error ("max_chars must be positive, got ".toList ++ intStr 0) ∧
    create_chunks [⟨1, "T".toList, "x".toList⟩] 7000 =
      .ok ([⟨1, "T".toList, "x".toList⟩].flatMap (chunksOfChapter 7000)) :=
  ⟨(create_chunks_maxChars_contract [⟨1, "T".toList, "x".toList⟩] 0).1 (by norm_num),
   (create_chunks_maxChars_contract [⟨1, "T".toList, "x".toList⟩] 7000).2 (by norm_num)⟩

end PartNumbering

/-! ### Size bound and trimmedness of chunks -/

section ChunkContract

/-- C1: for every chapter list and every `maxChars > 0`, every chunk the
Chunk Packer emits is at most `maxChars` characters long, except that a
chunk may exceed `maxChars` only when its text is a single indivisible
sentence (the sentence splitter returns it unchanged), i.e. an oversized
sentence forms its own chunk and is never truncated mid-sentence. -/
theorem create_chunks_size_bound (chapters : List Chapter) (maxChars : Int)
    (hpos : 0 < maxChars) (cs : List Chunk)
    (hok : create_chunks chapters maxChars = .ok cs) :
    ∀ c ∈ cs, (c.text.length : Int) ≤ maxChars ∨
      (maxChars < (c.text.length : Int) ∧ split_by_sentences c.text = [c.text]) := by
  rw [create_chunks, if_neg (by omega)] at hok
  have hcs : cs = chapters.flatMap (chunksOfChapter maxChars) :=
    (Except.ok.injEq _ _ ▸ hok).symm
  subst hcs
  intro c hc
  obtain ⟨ch, _, hcm⟩ := List.mem_flatMap.mp hc
  exact (chunksOfChapter_text_spec maxChars ch c hcm).1

/-- Witness for C1: in a chapter whose every sentence exceeds
`maxChars = 3`, the chunk holding the oversized sentence `Three.` is a
single indivisible sentence. -/
theorem create_chunks_size_bound_witness :
    (((⟨1, "T".toList, 3, 3, "Three.".toList, "chap_0001_part_003".toList⟩ :
        Chunk).text.length : Int) ≤ 3) ∨
      (3 < ((⟨1, "T".toList, 3, 3, "Three.".toList,
          "chap_0001_part_003".toList⟩ : Chunk).text.length : Int) ∧
        split_by_sentences (⟨1, "T".toList, 3, 3, "Three.".toList,
          "chap_0001_part_003".toList⟩ : Chunk).text =
          [(⟨1, "T".toList, 3, 3, "Three.".toList,
            "chap_0001_part_003".toList⟩ : Chunk).text]) :=
  create_chunks_size_bound [⟨1, "T".toList, "One. Two. Three.".toList⟩] 3
    (by norm_num)
    [⟨1, "T".toList, 1, 3, "One.".toList, "chap_0001_part_001".toList⟩,
     ⟨1, "T".toList, 2, 3, "Two.".toList, "chap_0001_part_002".toList⟩,
     ⟨1, "T".toList, 3, 3, "Three.".toList, "chap_0001_part_003".toList⟩]
    (by decide)
    ⟨1, "T".toList, 3, 3, "Three.".toList, "chap_0001_part_003".toList⟩
    (by decide)

/-- C10: every chunk text is trimmed — it equals its own `strip`. -/
theorem create_chunks_text_trimmed (chapters : List Chapter) (maxChars : Int)
    (hpos : 0 < maxChars) (cs : List Chunk)
    (hok : create_chunks chapters maxChars = .ok cs) :
    ∀ c ∈ cs, pystrip c.text = c.text := by
  rw [create_chunks, if_neg (by omega)] at hok
  have hcs : cs = chapters.flatMap (chunksOfChapter maxChars) :=
    (Except.ok.injEq _ _ ▸ hok).symm
  subst hcs
  intro c hc
  obtain ⟨ch, _, hcm⟩ := List.mem_flatMap.mp hc
  exact (chunksOfChapter_text_spec maxChars ch c hcm).2

/-- Witness for C10 on a chapter with surrounding whitespace that splits
into two parts: the first part's text is trimmed. -/
theorem create_chunks_text_trimmed_witness :
    pystrip (⟨2, "U".toList, 1, 2, "a b".toList,
        "chap_0002_part_001".toList⟩ : Chunk).text =
      (⟨2, "U".toList, 1, 2, "a b".toList, "chap_0002_part_001".toList⟩ : Chunk).text :=
  create_chunks_text_trimmed [⟨2, "U".toList, "  a b  \n\nc d  ".toList⟩] 5
    (by norm_num)
    [⟨2, "U".toList, 1, 2, "a b".toList, "chap_0002_part_001".toList⟩,
     ⟨2, "U".toList, 2, 2, "c d".toList, "chap_0002_part_002".toList⟩]
    (by decide)
    ⟨2, "U".toList, 1, 2, "a b".toList, "chap_0002_part_001".toList⟩
    (by decide)

end ChunkContract

/-! ### Chapter segmentation fallback and prologue -/

section SegmentationTheorems

/-- C8: an input with zero heading matches yields exactly one chapter,
numbered 1, titled `Toàn bộ nội dung`, whose text is the trimmed input;
this degraded case produces a value, not a failure. -/
theorem split_into_chapters_no_heading (text : List Char)
    (h : findChapters text = []) :
    split_into_chapters text = [⟨1, "Toàn bộ nội dung".toList, pystrip text⟩] := by
  rw [split_into_chapters, h]

/-- Witness for C8 on a concrete heading-free input. -/
theorem split_into_chapters_no_heading_witness :
    split_into_chapters "hello world.".toList =
      [⟨1, "Toàn bộ nội dung".toList, pystrip "hello world.".toList⟩] :=
  split_into_chapters_no_heading "hello world.".toList (by decide)

/-- C9: with at least one heading match, a synthetic Chapter 0 titled
`Mở đầu` holding the trimmed span before the first heading is prepended
exactly when that trimmed span is longer than 100 characters; otherwise the
span is discarded and the chapters are exactly the heading-derived ones. -/
theorem split_into_chapters_prologue (text : List Char) (m : RMatch)
    (ms : List RMatch) (h : findChapters text = m :: ms) :
    (100 < (pystrip (text.take m.start)).length →
      split_into_chapters text =
        ⟨0, "Mở đầu".toList, pystrip (text.take m.start)⟩ ::
          buildChapters text (m :: ms)) ∧
    ((pystrip (text.take m.start)).length ≤ 100 →
      split_into_chapters text = buildChapters text (m :: ms)) := by
  constructor
  · intro hgt
    have hne : (pystrip (text.take m.start)).isEmpty = false := by
      cases hp : pystrip (text.take m.start) with
      | nil => rw [hp] at hgt; simp at hgt
      | cons a t => rfl
    have hcond : (!(pystrip (text.take m.start)).isEmpty &&
        decide (100 < (pystrip (text.take m.start)).length)) = true := by
      simp [hne, hgt]
    simp only [split_into_chapters, h, hcond, if_true]
  · intro hle
    have hcond : (!(pystrip (text.take m.start)).isEmpty &&
        decide (100 < (pystrip (text.take m.start)).length)) = false := by
      simp
      omega
    simp only [split_into_chapters, h, hcond, Bool.false_eq_true, if_false]

/-- Witness for C9: a 101-character prologue produces Chapter 0, a
50-character one does not. -/
theorem split_into_chapters_prologue_witness :
    (split_into_chapters (List.replicate 101 'x' ++ "\nChương 1: A\nbody".toList) =
      ⟨0, "Mở đầu".toList,
        pystrip ((List.replicate 101 'x' ++ "\nChương 1: A\nbody".toList).take 102)⟩ ::
        buildChapters (List.replicate 101 'x' ++ "\nChương 1: A\nbody".toList)
          [⟨102, 113, ['1'], some ['A']⟩]) ∧
    (split_into_chapters (List.replicate 50 'y' ++ "\nChương 1: A\nbody".toList) =
      buildChapters (List.replicate 50 'y' ++ "\nChương 1: A\nbody".toList)
        [⟨51, 62, ['1'], some ['A']⟩]) :=
  ⟨(split_into_chapters_prologue _ ⟨102, 113, ['1'], some ['A']⟩ [] (by decide)).1
      (by decide),
   (split_into_chapters_prologue _ ⟨51, 62, ['1'], some ['A']⟩ [] (by decide)).2
      (by decide)⟩

end SegmentationTheorems

/-! ### The line-reflow decision -/

section ShouldJoinTheorem

theorem is_chapter_heading_rstrip (l : List Char) :
    is_chapter_heading (rstrip l) = is_chapter_heading l := by
  rw [is_chapter_heading, is_chapter_heading, pystrip_rstrip]

theorem is_chapter_heading_pystrip (l : List Char) :
    is_chapter_heading (pystrip l) = is_chapter_heading l := by
  rw [is_chapter_heading, is_chapter_heading, pystrip_idem]

/-- C7: `should_join_lines current next` returns true exactly when all of
the following hold: neither line is blank after trimming; neither line
matches the chapter-heading grammar; the current line's last character is
not a sentence-ending mark; the next line's first character is neither a
bullet/dash marker nor an uppercase letter (digits being exempt from the
uppercase test). -/
theorem should_join_lines_iff (cur nxt : List Char) :
    should_join_lines cur nxt = true ↔
      (pystrip cur ≠ [] ∧ pystrip nxt ≠ [] ∧
       is_chapter_heading cur = false ∧ is_chapter_heading nxt = false ∧
       (∀ c, (rstrip cur).getLast? = some c → c ∉ SENTENCE_ENDINGS) ∧
       (∀ c, (pystrip nxt).head? = some c → c ∉ LINE_START_BLOCK) ∧
       (∀ c, (pystrip nxt).head? = some c →
          ¬(pyIsUpper c = true ∧ pyIsDigit c = false))) := by
  simp only [should_join_lines]
  by_cases h1 : ((rstrip cur).isEmpty || (pystrip nxt).isEmpty) = true
  · rw [if_pos h1]
    simp only [Bool.false_eq_true, false_iff]
    rintro ⟨r1, r2, -⟩
    rcases Bool.or_eq_true _ _ |>.mp h1 with he | he
    · exact r1 (rstrip_eq_nil_iff_pystrip cur |>.mp (List.isEmpty_iff.mp he))
    · exact r2 (List.isEmpty_iff.mp he)
  · rw [if_neg h1]
    have h1' : pystrip cur ≠ [] ∧ pystrip nxt ≠ [] := by
      rw [Bool.or_eq_true] at h1
      push_neg at h1
      constructor
      · intro hnil
        exact absurd (List.isEmpty_iff.mpr ((rstrip_eq_nil_iff_pystrip cur).mpr hnil)) h1.1
      · intro hnil
        exact absurd (List.isEmpty_iff.mpr hnil) h1.2
    by_cases h2 : (is_chapter_heading (rstrip cur) || is_chapter_heading (pystrip nxt)) = true
    · rw [if_pos h2]
      simp only [Bool.false_eq_true, false_iff]
      rintro ⟨-, -, r3, r4, -⟩
      rcases Bool.or_eq_true _ _ |>.mp h2 with hh | hh
      · rw [is_chapter_heading_rstrip] at hh
        rw [r3] at hh
        cases hh
      · rw [is_chapter_heading_pystrip] at hh
        rw [r4] at hh
        cases hh
    · rw [if_neg h2]
      have h2' : is_chapter_heading cur = false ∧ is_chapter_heading nxt = false := by
        rw [Bool.or_eq_true] at h2
        push_neg at h2
        constructor
        · rw [← is_chapter_heading_rstrip]
          exact Bool.not_eq_true _ |>.mp h2.1
        · rw [← is_chapter_heading_pystrip]
          exact Bool.not_eq_true _ |>.mp h2.2
      by_cases h3 : (match (rstrip cur).getLast? with
          | some c => SENTENCE_ENDINGS.contains c
          | none => false) = true
      · rw [if_pos h3]
        simp only [Bool.false_eq_true, false_iff]
        rintro ⟨-, -, -, -, r5, -⟩
        cases hl : (rstrip cur).getLast? with
        | none => rw [hl] at h3; cases h3
        | some c =>
          rw [hl] at h3
          exact r5 c hl (by simpa using h3)
      · rw [if_neg h3]
        have h3' : ∀ c, (rstrip cur).getLast? = some c → c ∉ SENTENCE_ENDINGS := by
          intro c hc hmem
          apply h3
          rw [hc]
          simpa using hmem
        by_cases h4 : (match (pystrip nxt).head? with
            | some c => LINE_START_BLOCK.contains c
            | none => false) = true
        · rw [if_pos h4]
          simp only [Bool.false_eq_true, false_iff]
          rintro ⟨-, -, -, -, -, r6, -⟩
          cases hl : (pystrip nxt).head? with
          | none => rw [hl] at h4; cases h4
          | some c =>
            rw [hl] at h4
            exact r6 c hl (by simpa using h4)
        · rw [if_neg h4]
          have h4' : ∀ c, (pystrip nxt).head? = some c → c ∉ LINE_START_BLOCK := by
            intro c hc hmem
            apply h4
            rw [hc]
            simpa using hmem
          by_cases h5 : (match (pystrip nxt).head? with
              | some c => pyIsUpper c && !pyIsDigit c
              | none => false) = true
          · rw [if_pos h5]
            simp only [Bool.false_eq_true, false_iff]
            rintro ⟨-, -, -, -, -, -, r7⟩
            cases hl : (pystrip nxt).head? with
            | none => rw [hl] at h5; cases h5
            | some c =>
              rw [hl] at h5
              rw [Bool.and_eq_true, Bool.not_eq_true'] at h5
              exact r7 c hl ⟨h5.1, h5.2⟩
          · rw [if_neg h5]
            have h5' : ∀ c, (pystrip nxt).head? = some c →
                ¬(pyIsUpper c = true ∧ pyIsDigit c = false) := by
              intro c hc hcon
              apply h5
              rw [hc]
              rw [Bool.and_eq_true, Bool.not_eq_true']
              exact hcon
            simp only [true_iff]
            exact ⟨h1'.1, h1'.2, h2'.1, h2'.2, h3', h4', h5'⟩

/-- Witness for C7: all five conditions hold for the pair
`("xin chào", "tiếp tục")`, and the function joins them. -/
theorem should_join_lines_iff_witness :
    should_join_lines "xin chào".toList "tiếp tục".toList = true :=
  (should_join_lines_iff "xin chào".toList "tiếp tục".toList).mpr
    ⟨by decide, by decide, by decide, by decide, by decide, by decide, by decide⟩

end ShouldJoinTheorem

/-! ### Heading canonicalization (`normalize_chapter_title`) -/

section NormalizeTitleTheorems

theorem takeWhile_all {p : Char → Bool} {l : List Char} (h : ∀ x ∈ l, p x = true) :
    l.takeWhile p = l := by
  induction l with
  | nil => rfl
  | cons a t ih =>
    simp [List.takeWhile_cons, h a (by simp), ih (fun x hx => h x (by simp [hx]))]

theorem takeWhile_append_stop {p : Char → Bool} {xs : List Char} {y : Char}
    {rest : List Char} (hxs : ∀ x ∈ xs, p x = true) (hy : p y = false) :
    (xs ++ y :: rest).takeWhile p = xs := by
  induction xs with
  | nil => simp [List.takeWhile_cons, hy]
  | cons a t ih =>
    simp [List.takeWhile_cons, hxs a (by simp), ih (fun x hx => hxs x (by simp [hx]))]

theorem digit_not_space {c : Char} (h : pyDigit c = true) : pySpace c = false := by
  cases hs : pySpace c
  · rfl
  · exfalso
    have hor : ((((c = ' ' ∨ c = '\t') ∨ c = '\n') ∨ c = '\r') ∨ c = '\x0b') ∨
        c = '\x0c' := by
      simpa [pySpace] using hs
    rcases hor with ((((rfl | rfl) | rfl) | rfl) | rfl) | rfl <;> exact absurd h (by decide)

theorem not_newline_of_not_space {c : Char} (h : pySpace c = false) : c ≠ '\n' := by
  rintro rfl
  exact absurd h (by decide)

theorem nct_sep_not_digit {c : Char} (h : c ∈ NCT_SEPS) : pyDigit c = false := by
  have hor : c = ':' ∨ c = '：' ∨ c = '-' ∨ c = '–' := by simpa [NCT_SEPS] using h
  rcases hor with rfl | rfl | rfl | rfl <;> decide

theorem nct_sep_not_space {c : Char} (h : c ∈ NCT_SEPS) : pySpace c = false := by
  have hor : c = ':' ∨ c = '：' ∨ c = '-' ∨ c = '–' := by simpa [NCT_SEPS] using h
  rcases hor with rfl | rfl | rfl | rfl <;> decide

theorem chapWords_length {w : List Char} (hw : w ∈ chapWords) : w.length = 6 := by
  have hor : w = "Chương".toList ∨ w = "CHƯƠNG".toList ∨ w = "chương".toList := by
    simpa [chapWords] using hw
  rcases hor with rfl | rfl | rfl <;> decide

theorem wordPrefix?_concat {w : List Char} (rest : List Char) (hw : w ∈ chapWords) :
    wordPrefix? (w ++ rest) = some w := by
  have h6 : w.length = 6 := chapWords_length hw
  have htake : (w ++ rest).take 6 = w := by
    rw [← h6]
    exact List.take_left w rest
  have hor : w = "Chương".toList ∨ w = "CHƯƠNG".toList ∨ w = "chương".toList := by
    simpa [chapWords] using hw
  simp only [wordPrefix?, htake]
  rcases hor with rfl | rfl | rfl <;> decide

/-- Evaluation of the title group on input `' ' :: title` with `title`
trimmed, nonempty, and newline-free: the greedy `\s*` eats the space, the
title runs to the end, and nothing remains. -/
theorem nctTitle_eval {title : List Char} (hne : title ≠ [])
    (ht : pystrip title = title) (hnl : '\n' ∉ title) :
    nctTitle (' ' :: title) = some (title, []) := by
  cases title with
  | nil => exact absurd rfl hne
  | cons t0 tl =>
    have h0 : pySpace t0 = false := head_not_space_of_trimmed ht t0 rfl
    have hm : (' ' :: t0 :: tl).takeWhile pySpace = [' '] := by
      rw [List.takeWhile_cons, if_pos (by decide), List.takeWhile_cons,
        if_neg (by simp [h0])]
    have hn0 : t0 ≠ '\n' := not_newline_of_not_space h0
    have htw : (t0 :: tl).takeWhile (fun x => decide (x ≠ '\n')) = t0 :: tl := by
      apply takeWhile_all
      intro x hx
      simp only [decide_eq_true_iff]
      intro hxx
      subst hxx
      exact hnl hx
    have halltl : ∀ x ∈ tl, ¬ x = '\n' := by
      intro x hx hxx
      subst hxx
      exact hnl (List.mem_cons_of_mem t0 hx)
    have htl2 : tl.takeWhile (fun x => !decide (x = '\n')) = tl := by
      apply takeWhile_all
      intro x hx
      simpa using halltl x hx
    simp only [nctTitle, hm, List.length_cons, List.length_nil, Nat.zero_add]
    simp [List.range_succ, List.findSome?_cons, hn0, halltl, htl2]
    omega

/-- Evaluation of one `normalize_chapter_title` match on a line of the form
`W ++ " " ++ digits ++ sep ++ " " ++ title`. -/
theorem nctMatchHere_eval {w ds title : List Char} {sep : Char}
    (hw : w ∈ chapWords)
    (hds1 : ds ≠ []) (hds5 : ds.length ≤ 5) (hdsd : ∀ c ∈ ds, pyDigit c = true)
    (hsep : sep ∈ NCT_SEPS)
    (ht1 : title ≠ []) (ht2 : pystrip title = title) (htn : '\n' ∉ title) :
    nctMatchHere (w ++ ' ' :: (ds ++ sep :: ' ' :: title)) =
      some (w, ds, title, []) := by
  have h6 : w.length = 6 := chapWords_length hw
  have hword := wordPrefix?_concat (' ' :: (ds ++ sep :: ' ' :: title)) hw
  have hdrop6 : (w ++ ' ' :: (ds ++ sep :: ' ' :: title)).drop 6 =
      ' ' :: (ds ++ sep :: ' ' :: title) := by
    rw [← h6]
    exact List.drop_left w _
  obtain ⟨d0, ds', rfl⟩ : ∃ d0 ds', ds = d0 :: ds' := by
    cases ds with
    | nil => exact absurd rfl hds1
    | cons a b => exact ⟨a, b, rfl⟩
  have hd0 : pySpace d0 = false := digit_not_space (hdsd d0 (by simp))
  have hws1 : (' ' :: (d0 :: ds' ++ sep :: ' ' :: title)).takeWhile pySpace = [' '] := by
    rw [List.takeWhile_cons, if_pos (by decide), List.cons_append, List.takeWhile_cons,
      if_neg (by simp [hd0])]
  have hdig : ((d0 :: ds') ++ sep :: ' ' :: title).takeWhile pyDigit = d0 :: ds' :=
    takeWhile_append_stop hdsd (nct_sep_not_digit hsep)
  have hdigdrop : (d0 :: ds' ++ sep :: ' ' :: title).drop (ds'.length + 1) =
      sep :: ' ' :: title := by
    rw [List.cons_append, List.drop_succ_cons]
    exact List.drop_left ds' _
  have hr3tw : (sep :: ' ' :: title).takeWhile pySpace = [] := by
    rw [List.takeWhile_cons, if_neg (by simp [nct_sep_not_space hsep])]
  have hcontains : NCT_SEPS.contains sep = true := by simpa using hsep
  have h5f : decide (5 < ds'.length + 1) = false := by
    simp only [decide_eq_false_iff_not, Nat.not_lt]
    simpa using hds5
  have htitle := nctTitle_eval ht1 ht2 htn
  simp only [nctMatchHere, hword, hdrop6, hws1, List.isEmpty_cons, Bool.false_eq_true,
    if_false, List.length_cons, List.length_nil, Nat.zero_add, List.drop_succ_cons,
    List.drop_zero, hdig, h5f, Bool.or_false, hdigdrop, hr3tw, hcontains, if_true,
    List.head?_cons, htitle]

/-- C4 counterexample: the line `CHƯƠNG 2 - Ta` is rewritten preserving the
matched word's capitalization, `CHƯƠNG 2: Ta`, not to the claimed canonical
`Chương 2: Ta`; and the separator `—` (em dash), which the claim lists, is
not recognized at all, so `Chương 2 — Ta` is left unchanged. -/
theorem normalize_chapter_title_counterexample :
    normalize_chapter_title "CHƯƠNG 2 - Ta".toList = "CHƯƠNG 2: Ta".toList ∧
    normalize_chapter_title "CHƯƠNG 2 - Ta".toList ≠ "Chương 2: Ta".toList ∧
    normalize_chapter_title "Chương 2 — Ta".toList = "Chương 2 — Ta".toList ∧
    normalize_chapter_title "Chương 2 — Ta".toList ≠ "Chương 2: Ta".toList :=
  ⟨by decide, by decide, by decide, by decide⟩

/-- C4 amended: a line `W ++ " " ++ digits ++ sep ++ " " ++ title` with `W`
one of the three literal words `Chương`, `CHƯƠNG`, `chương`, one to five
digits, `sep` in `{: ： - –}` (the em dash `—` is not a recognized
separator), and a trimmed newline-free nonempty title, is rewritten to
`W ++ " " ++ digits ++ ": " ++ title`: the separator is canonicalized but
the word's capitalization is preserved, not canonicalized to `Chương`. -/
theorem normalize_chapter_title_amended (w ds title : List Char) (sep : Char)
    (hw : w ∈ chapWords) (hds1 : ds ≠ []) (hds5 : ds.length ≤ 5)
    (hdsd : ∀ c ∈ ds, pyDigit c = true) (hsep : sep ∈ NCT_SEPS)
    (ht1 : title ≠ []) (ht2 : pystrip title = title) (htn : '\n' ∉ title) :
    normalize_chapter_title (w ++ ' ' :: (ds ++ sep :: ' ' :: title)) =
      w ++ ' ' :: (ds ++ ':' :: ' ' :: title) := by
  have hmatch := nctMatchHere_eval hw hds1 hds5 hdsd hsep ht1 ht2 htn
  have h6 : w.length = 6 := chapWords_length hw
  obtain ⟨c0, w', rfl⟩ : ∃ c0 w', w = c0 :: w' := by
    cases w with
    | nil => simp at h6
    | cons a b => exact ⟨a, b, rfl⟩
  rw [normalize_chapter_title]
  rw [List.cons_append] at hmatch ⊢
  rw [show (c0 :: (w' ++ ' ' :: (ds ++ sep :: ' ' :: title))).length =
      (w' ++ ' ' :: (ds ++ sep :: ' ' :: title)).length + 1 from rfl]
  simp only [nctGoF, hmatch, ht2]
  simp

/-- Witness for the amended C4 at a concrete line with word `CHƯƠNG` and
separator `-`. -/
theorem normalize_chapter_title_amended_witness :
    normalize_chapter_title
        ("CHƯƠNG".toList ++ ' ' :: (['2'] ++ '-' :: ' ' :: "Ta".toList)) =
      "CHƯƠNG".toList ++ ' ' :: (['2'] ++ ':' :: ' ' :: "Ta".toList) :=
  normalize_chapter_title_amended "CHƯƠNG".toList ['2'] "Ta".toList '-'
    (by decide) (by decide) (by decide) (by decide) (by decide) (by decide)
    (by decide) (by decide)

end NormalizeTitleTheorems

/-! ### The boilerplate counter -/

section BoilerplateTheorems

theorem bump_filter_same (k0 : List Char) (cs : List (List Char × Nat)) :
    (bump k0 cs).filter (fun kn => kn.1 = k0) =
      match cs.filter (fun kn => kn.1 = k0) with
      | [] => [(k0, 1)]
      | (k, m) :: rest => (k, m + 1) :: rest := by
  induction cs with
  | nil => simp [bump]
  | cons kn rest ih =>
    obtain ⟨k2, m⟩ := kn
    by_cases h : k2 = k0
    · subst h
      simp [bump, List.filter_cons]
    · simp only [bump, if_neg h, List.filter_cons]
      simp only [decide_eq_true_iff]
      rw [if_neg h, if_neg h]
      exact ih

theorem bump_filter_ne {k k0 : List Char} (h : k ≠ k0) (cs : List (List Char × Nat)) :
    (bump k0 cs).filter (fun kn => kn.1 = k) = cs.filter (fun kn => kn.1 = k) := by
  induction cs with
  | nil => simp [bump, Ne.symm h]
  | cons kn rest ih =>
    obtain ⟨k2, m⟩ := kn
    by_cases h2 : k2 = k0
    · subst h2
      simp [bump, List.filter_cons, Ne.symm h]
    · simp [bump, h2, List.filter_cons, ih]

theorem countInv_congr {cs : List (List Char × Nat)} {cnt1 cnt2 : List Char → Nat}
    (h : ∀ k, cnt1 k = cnt2 k) (hinv : CountInv cs cnt1) : CountInv cs cnt2 := by
  intro k
  rw [← h k]
  exact hinv k

theorem countInv_bump {cs : List (List Char × Nat)} {cnt : List Char → Nat}
    (hinv : CountInv cs cnt) (k0 : List Char) :
    CountInv (bump k0 cs) (fun k => if k = k0 then cnt k + 1 else cnt k) := by
  intro k
  show (bump k0 cs).filter (fun kn => kn.1 = k) =
    if 1 ≤ (if k = k0 then cnt k + 1 else cnt k) then
      [(k, if k = k0 then cnt k + 1 else cnt k)] else []
  by_cases h : k = k0
  · subst h
    rw [bump_filter_same, hinv k]
    simp only [eq_self_iff_true, if_true]
    by_cases h1 : 1 ≤ cnt k
    · rw [if_pos h1, if_pos (by omega)]
    · rw [if_neg h1, if_pos (by omega)]
      have h0 : cnt k = 0 := by omega
      rw [h0]
  · rw [bump_filter_ne h, hinv k]
    simp only [if_neg h]

theorem countInv_foldBump :
    ∀ (ls : List (List Char)) (cs : List (List Char × Nat)) (cnt : List Char → Nat),
      ls.Nodup → CountInv cs cnt →
      CountInv (ls.foldl (fun acc l => bump l acc) cs)
        (fun k => cnt k + if k ∈ ls then 1 else 0) := by
  intro ls
  induction ls with
  | nil =>
    intro cs cnt _ hinv
    exact countInv_congr (fun k => by simp) hinv
  | cons l0 ls' ih =>
    intro cs cnt hnd hinv
    have hnotin : l0 ∉ ls' := (List.nodup_cons.mp hnd).1
    have hnd' : ls'.Nodup := (List.nodup_cons.mp hnd).2
    have h2 := ih (bump l0 cs) _ hnd' (countInv_bump hinv l0)
    refine countInv_congr (fun k => ?_) h2
    by_cases hk : k = l0
    · subst hk
      rw [if_pos rfl, if_neg hnotin, if_pos (List.mem_cons_self k ls')]
    · rw [if_neg hk]
      by_cases hk2 : k ∈ ls'
      · rw [if_pos hk2, if_pos (List.mem_cons_of_mem l0 hk2)]
      · rw [if_neg hk2, if_neg (by simp [List.mem_cons, hk, hk2])]

theorem countInv_tallyPages :
    ∀ (pages : List (List Char)) (cs : List (List Char × Nat)) (cnt : List Char → Nat),
      CountInv cs cnt →
      CountInv
        (pages.foldl
          (fun counts pg => (qualifiedLines pg).foldl (fun a l => bump l a) counts) cs)
        (fun k => cnt k + pageCount pages k) := by
  intro pages
  induction pages with
  | nil =>
    intro cs cnt hinv
    exact countInv_congr (fun k => by simp [pageCount]) hinv
  | cons pg rest ih =>
    intro cs cnt hinv
    have h1 := countInv_foldBump (qualifiedLines pg) cs cnt
      (by rw [qualifiedLines]; exact List.nodup_dedup _) hinv
    have h2 := ih _ _ h1
    refine countInv_congr (fun k => ?_) h2
    rw [pageCount, pageCount, List.filter_cons]
    by_cases hk : k ∈ qualifiedLines pg
    · rw [if_pos hk]
      rw [if_pos (by simpa using hk)]
      simp only [List.length_cons]
      omega
    · rw [if_neg hk]
      rw [if_neg (by simpa using hk)]
      omega

theorem countInv_tally (pages : List (List Char)) :
    CountInv (tallyPages pages) (pageCount pages) := by
  have h0 : CountInv [] (fun _ => 0) := by
    intro k
    simp
  have := countInv_tallyPages pages [] (fun _ => 0) h0
  rw [tallyPages]
  exact countInv_congr (fun k => by simp) this

theorem countInv_result_mem {cs : List (List Char × Nat)} {cnt : List Char → Nat}
    (hinv : CountInv cs cnt) (minC : Int) (l : List Char) :
    l ∈ (cs.filter (fun kc => minC ≤ (kc.2 : Int))).map Prod.fst ↔
      (1 ≤ cnt l ∧ minC ≤ (cnt l : Int)) := by
  constructor
  · rintro hmem
    obtain ⟨kn, hkn, rfl⟩ := List.mem_map.mp hmem
    have hcs := List.mem_of_mem_filter hkn
    have hmin : minC ≤ (kn.2 : Int) := by simpa using List.of_mem_filter hkn
    have hfk : kn ∈ cs.filter (fun kn2 => kn2.1 = kn.1) := by
      rw [List.mem_filter]
      exact ⟨hcs, by simp⟩
    rw [hinv kn.1] at hfk
    by_cases h1 : 1 ≤ cnt kn.1
    · rw [if_pos h1] at hfk
      simp only [List.mem_singleton] at hfk
      have : kn.2 = cnt kn.1 := by rw [hfk]
      exact ⟨h1, by rw [← this]; exact hmin⟩
    · rw [if_neg h1] at hfk
      simp at hfk
  · rintro ⟨h1, hmin⟩
    have hf := hinv l
    rw [if_pos h1] at hf
    have hlm : (l, cnt l) ∈ cs.filter (fun kn2 => kn2.1 = l) := by
      rw [hf]
      simp
    have hcs : (l, cnt l) ∈ cs := List.mem_of_mem_filter hlm
    apply List.mem_map.mpr
    refine ⟨(l, cnt l), ?_, rfl⟩
    rw [List.mem_filter]
    exact ⟨hcs, by simpa using hmin⟩

/-- C5 amended: fewer than 3 pages yields the empty set; otherwise a line is
returned exactly when it is a qualified line (trimmed, length 3 to 40,
counted at most once per page) of at least one scanned page and its
page-count reaches `int(threshold × effectivePageCount)` — the integer
truncation of the product, not the exact rational bound the original claim
states. -/
theorem find_repeating_amended (pick : List Nat) (pages : List (List Char))
    (threshold : ℚ) :
    (pages.length < 3 → find_repeating_headers_footers pick pages threshold = []) ∧
    (3 ≤ pages.length →
      ∀ l, l ∈ find_repeating_headers_footers pick pages threshold ↔
        (1 ≤ pageCount (sampledPages pick pages) l ∧
         pyIntMulNat threshold (sampledPages pick pages).length ≤
           (pageCount (sampledPages pick pages) l : Int))) := by
  constructor
  · intro h
    rw [find_repeating_headers_footers, if_pos h]
  · intro h l
    rw [find_repeating_headers_footers, if_neg (by omega)]
    exact countInv_result_mem (countInv_tally (sampledPages pick pages)) _ l

/-- C5 counterexample: with five pages and threshold `1/2`, the line `abcd`
appears on two pages and is returned, although its page-count 2 is below
the exact rational bound `1/2 × 5 = 2.5` — the code compares against
`int(2.5) = 2`. -/
theorem find_repeating_threshold_counterexample :
    "abcd".toList ∈ find_repeating_headers_footers [] examplePages qHalf ∧
    pageCount examplePages "abcd".toList = 2 ∧
    ¬((pageCount examplePages "abcd".toList : ℚ) ≥
        qHalf * (examplePages.length : ℚ)) := by
  refine ⟨by decide, by decide, ?_⟩
  rw [show pageCount examplePages "abcd".toList = 2 from by decide]
  rw [show (examplePages.length : ℚ) = 5 from by simp [examplePages]]
  rw [show qHalf = 1 / 2 from by
    rw [← Rat.num_div_den qHalf]
    norm_num [qHalf]]
  norm_num

/-- Witness for the amended C5 at the concrete five-page input. -/
theorem find_repeating_amended_witness :
    "abcd".toList ∈ find_repeating_headers_footers [] examplePages qHalf :=
  ((find_repeating_amended [] examplePages qHalf).2 (by decide) "abcd".toList).mpr
    ⟨by decide, by decide⟩

end BoilerplateTheorems

/-! ### Determinism of the Text Normalizer -/

section DeterminismTheorems

theorem find_repeating_pick_irrelevant (pick1 pick2 : List Nat)
    (pages : List (List Char)) (threshold : ℚ) (h : pages.length ≤ 200) :
    find_repeating_headers_footers pick1 pages threshold =
      find_repeating_headers_footers pick2 pages threshold := by
  rw [find_repeating_headers_footers, find_repeating_headers_footers]
  by_cases h3 : pages.length < 3
  · rw [if_pos h3, if_pos h3]
  · rw [if_neg h3, if_neg h3]
    have hs : sampledPages pick1 pages = sampledPages pick2 pages := by
      rw [sampledPages, sampledPages, if_neg (by omega), if_neg (by omega)]
    rw [hs]

/-- C6 counterexample: on a 201-page document the output of the Text
Normalizer depends on which middle pages the sampler draws — two runs with
identical `rawText` and `pageTexts` but different random draws return
different strings, so the function is not two-run deterministic (the global
random-number generator is external state). -/
theorem preprocess_text_nondeterministic_counterexample :
    bigPages.length = 201 ∧
    preprocess_text (List.range' 50 100) "abcde\nhello.".toList bigPages ≠
      preprocess_text (List.range' 51 100) "abcde\nhello.".toList bigPages :=
  ⟨by decide, by decide⟩

/-- C6 amended: the Text Normalizer is deterministic given identical
`rawText`, `pageTexts` *and* sampler draw; when the page list has at most
200 pages (so sampling is not used) the output is independent of the draw
altogether, and two runs agree unconditionally. -/
theorem preprocess_text_deterministic_le200 (pick1 pick2 : List Nat)
    (text : List Char) (pages : List (List Char)) (h : pages.length ≤ 200) :
    preprocess_text pick1 text pages = preprocess_text pick2 text pages := by
  have hfr := find_repeating_pick_irrelevant pick1 pick2 pages float03 h
  simp only [preprocess_text, hfr]

/-- Witness for the amended C6 on a concrete two-page input. -/
theorem preprocess_text_deterministic_le200_witness :
    preprocess_text [1] "a\nb".toList ["p1".toList, "p2".toList] =
      preprocess_text [2] "a\nb".toList ["p1".toList, "p2".toList] :=
  preprocess_text_deterministic_le200 [1] [2] "a\nb".toList
    ["p1".toList, "p2".toList] (by decide)

end DeterminismTheorems

end NovelPolisher
